import Mathlib

/-!
Verification of the multi-strategy segment-alignment engine of
`tools/mandarin_translate_json.py`.

Strings are modelled as `List Char` (Python `str` indexing, slicing and
`find` are all code-point based, which coincides with `List Char`
positions).  The translator capability (`TranslationAPI.call_url` plus its
error channel `transcription_error_message`) is modelled as an injected
function `Str → Option Str`: `none` covers a raised exception or a set
error message, `some s` a returned translation `s` (the code separately
treats an empty returned string as a failure, which is kept explicit in
each embedded function).  Python dicts keyed by segment id are modelled as
association lists with Python's insertion semantics (`pyInsert`): an update
keeps position, a fresh key appends.
-/

/-- Character strings, modelled as lists of characters. -/
abbrev Str := List Char

/-- The ASCII whitespace characters stripped by Python's `str.strip()` and
matched by `\s` (the inputs in this development are ASCII/BMP text). -/
def isPySpace (c : Char) : Bool :=
  c = ' ' || c = '\t' || c = '\n' || c = '\r' || c = '\x0b' || c = '\x0c'

/-- Python `s.strip()`: remove leading and trailing whitespace. -/
def pyStrip (s : Str) : Str :=
  ((s.dropWhile isPySpace).reverse.dropWhile isPySpace).reverse

/-- Python slice `s[a:b]` (for `0 ≤ a`, `0 ≤ b`). -/
def pySlice (s : Str) (a b : Nat) : Str :=
  (s.drop a).take (b - a)

/-- The needle `n` occurs in `h` at position `k`. -/
def occursAt (h n : Str) (k : Nat) : Prop :=
  (h.drop k).take n.length = n

instance (h n : Str) (k : Nat) : Decidable (occursAt h n k) := by
  unfold occursAt; infer_instance

/-- Python `h.find(n, start)` for a non-empty needle: index of the first
occurrence of `n` in `h` at position `≥ start`, if any. -/
def strFind (h n : Str) (start : Nat) : Option Nat :=
  (List.range (h.length + 1)).find? (fun k => start ≤ k && decide (occursAt h n k))

/-- Decimal digits, by structural recursion on a fuel bound (any fuel
above the value computes the digits; see `natToStr_unfold`). -/
def natToStrGo : Nat → Nat → Str
  | _, 0 => []
  | n, fuel + 1 =>
    if n < 10 then [Char.ofNat (48 + n)]
    else natToStrGo (n / 10) fuel ++ [Char.ofNat (48 + n % 10)]

/-- Decimal digits of a natural number (mirrors Python's `str(id)` used to
build marker tokens). -/
def natToStr (n : Nat) : Str :=
  natToStrGo n (n + 1)

theorem natToStrGo_congr (f1 : Nat) : ∀ n f2, n < f1 → n < f2 →
    natToStrGo n f1 = natToStrGo n f2 := by
  induction f1 with
  | zero => intro n f2 h; omega
  | succ f1 ih =>
    intro n f2 h1 h2
    cases f2 with
    | zero => omega
    | succ f2 =>
      rw [natToStrGo, natToStrGo]
      by_cases hn : n < 10
      · rw [if_pos hn, if_pos hn]
      · rw [if_neg hn, if_neg hn]
        have hd : n / 10 < n := Nat.div_lt_self (by omega) (by omega)
        rw [ih (n / 10) f2 (by omega) (by omega)]

theorem natToStr_unfold (n : Nat) :
    natToStr n = if n < 10 then [Char.ofNat (48 + n)]
      else natToStr (n / 10) ++ [Char.ofNat (48 + n % 10)] := by
  rw [natToStr, natToStrGo]
  by_cases hn : n < 10
  · rw [if_pos hn, if_pos hn]
  · rw [if_neg hn, if_neg hn, natToStr]
    have hd : n / 10 < n := Nat.div_lt_self (by omega) (by omega)
    rw [natToStrGo_congr n (n / 10) (n / 10 + 1) (by omega) (by omega)]

/-- A semantic segment as consumed by the alignment engine: the engine
reads only the `id` and `text` fields of each segment dict. -/
structure Segment where
  id : Nat
  text : Str
deriving DecidableEq, Repr

/-- A Python dict from segment id to translated text, as an insertion-order
association list. -/
abbrev TransDict := List (Nat × Str)

/-- Python dict assignment `d[k] = v`: overwrite in place if the key is
present, else append. -/
def pyInsert (d : TransDict) (k : Nat) (v : Str) : TransDict :=
  if d.any (fun p => p.1 == k) then
    d.map (fun p => if p.1 == k then (k, v) else p)
  else d ++ [(k, v)]

/-- Python dict lookup `d[k]` (as an option; a missing key raises KeyError
in Python, modelled by `none` at each use site). -/
def dictLookup (d : TransDict) (k : Nat) : Option Str :=
  (d.find? (fun p => p.1 == k)).map (·.2)

/-- Membership of a key in a dict. -/
def dictHasKey (d : TransDict) (k : Nat) : Prop :=
  ∃ v, (k, v) ∈ d

/-- The well-formedness invariant of the data model: segment ids equal
positions in the sequence (`id == index`). -/
def SegsWF (segs : List Segment) : Prop :=
  segs.map (·.id) = List.range segs.length

instance (segs : List Segment) : Decidable (SegsWF segs) := by
  unfold SegsWF; infer_instance

/-- An injected translator capability: `none` models a raised exception or
an error message from the vendor call, `some s` a returned string. -/
def Translator := Str → Option Str

/-! ### Boundary Snapper (`find_best_split_position`) -/

/-- The split-point characters of `find_best_split_position`, in the
source's priority order. -/
def split_chars : List Char :=
  ['。', '！', '？', '，', '；', '：', ' ', '、']

/-- `text[pos] in split_chars`, guarded by bounds (Python indexes are
guarded by `pos < len(text)` resp. `pos > min_pos ≥ 0` at the call sites). -/
def isSplitAt (text : Str) (pos : Nat) : Bool :=
  match text.get? pos with
  | some c => split_chars.contains c
  | none => false

/-- The loop body of `find_best_split_position`: scan the remaining
offsets; at each offset check forward (`target_pos + offset`) first, then —
for `offset > 0` — backward (`target_pos - offset`, which must stay
strictly above `min_pos`). Return `target_pos` if no offset hits. -/
def findSplitScan (text : Str) (target_pos min_pos : Nat) : List Nat → Nat
  | [] => target_pos
  | off :: rest =>
    if target_pos + off < text.length ∧ isSplitAt text (target_pos + off) then
      target_pos + off + 1
    else if 0 < off ∧ min_pos < target_pos - off ∧ isSplitAt text (target_pos - off) then
      target_pos - off + 1
    else findSplitScan text target_pos min_pos rest

/-- `find_best_split_position(text, target_pos, min_pos)`: snap a target
offset to a nearby natural split point (search range 5, i.e. offsets
`0..5`). -/
def find_best_split_position (text : Str) (target_pos min_pos : Nat) : Nat :=
  if target_pos ≥ text.length then text.length
  else if target_pos ≤ min_pos then min_pos
  else findSplitScan text target_pos min_pos [0, 1, 2, 3, 4, 5]

/-! ### Marker-Split Strategy (`translate_text`) -/

/-- The leading marker token `[XF_SEGMENT_<id>]`. -/
def markerOf (i : Nat) : Str :=
  "[XF_SEGMENT_".toList ++ natToStr i ++ "]".toList

/-- The composite marked text sent to the translator by `translate_text`:
for each segment in order, its marker immediately followed by its text. -/
def markedText (segs : List Segment) : Str :=
  segs.foldl (fun acc s => acc ++ markerOf s.id ++ s.text) []

/-- The extraction loop of `translate_text`: for each segment, find its
marker; if found, the translation is the span from the end of the marker to
the first occurrence of the next segment's marker (searched from the
current marker's position) or end-of-string, stripped; if the marker is
absent, the segment's original text. -/
def markerExtract (segs : List Segment) (full_translation : Str) : TransDict :=
  segs.foldl
    (fun d s =>
      let marker := markerOf s.id
      match strFind full_translation marker 0 with
      | none => pyInsert d s.id s.text
      | some start_pos =>
        let end_pos := (strFind full_translation (markerOf (s.id + 1)) start_pos).getD
          full_translation.length
        pyInsert d s.id
          (pyStrip (pySlice full_translation (start_pos + marker.length) end_pos)))
    []

/-- `translate_text(segments)`: Marker-Split strategy. Returns `none` for an
empty input; a failed or empty translator call raises, modelled as `none`. -/
def translate_text (tr : Translator) (segs : List Segment) : Option TransDict :=
  if segs = [] then none
  else
    match tr (markedText segs) with
    | none => none
    | some full_translation =>
      if full_translation = [] then none
      else some (markerExtract segs full_translation)

/-! ### Enhanced-Marker Strategy (`translate_text_with_enhanced_markers`) -/

/-- The symmetric marker token `【<id>】`. -/
def encMarkerOf (i : Nat) : Str :=
  '【' :: natToStr i ++ ['】']

/-- The composite text of the enhanced strategy: each segment's text
wrapped between an opening and a closing instance of its marker. -/
def encMarkedText (segs : List Segment) : Str :=
  segs.foldl (fun acc s => acc ++ encMarkerOf s.id ++ s.text ++ encMarkerOf s.id) []

/-- The extraction loop of the enhanced strategy: find the first marker
occurrence, then the next occurrence of the same marker after it; the
stripped span strictly between them is the translation (falling back to
the original text when the span strips to empty or either occurrence is
missing). Every iteration inserts exactly one entry for the segment. -/
def encExtract (segs : List Segment) (full_translation : Str) : TransDict :=
  segs.foldl
    (fun d s =>
      let start_marker := encMarkerOf s.id
      match strFind full_translation start_marker 0 with
      | none => pyInsert d s.id s.text
      | some first_marker_pos =>
        match strFind full_translation start_marker
            (first_marker_pos + start_marker.length) with
        | none => pyInsert d s.id s.text
        | some second_marker_pos =>
          let translation := pyStrip (pySlice full_translation
            (first_marker_pos + start_marker.length) second_marker_pos)
          pyInsert d s.id (if translation = [] then s.text else translation))
    []

/-- `clean_markers_from_translation`, first substitution: remove every
maximal `【digits】` token (the regex `【\d+】`; since `】` is not a digit, the
greedy scan matches exactly the maximal digit runs). -/
def removeEncMarkers : Str → Str
  | [] => []
  | c :: rest =>
    if c = '【' then
      let digits := rest.takeWhile Char.isDigit
      let after := rest.dropWhile Char.isDigit
      if digits ≠ [] ∧ after.head? = some '】' then removeEncMarkers after.tail
      else c :: removeEncMarkers rest
    else c :: removeEncMarkers rest
termination_by s => s.length
decreasing_by
  · have : (List.dropWhile Char.isDigit rest).length ≤ rest.length :=
      (List.dropWhile_sublist _).length_le
    simp only [List.length_cons, List.length_tail]
    omega
  · simp [Nat.lt_succ_self]
  · simp [Nat.lt_succ_self]

/-- `clean_markers_from_translation`, second substitution: collapse every
whitespace run to a single space (the regex `\s+` → `" "`). -/
def collapseSpaces : Str → Str
  | [] => []
  | c :: rest =>
    if isPySpace c then ' ' :: collapseSpaces (rest.dropWhile isPySpace)
    else c :: collapseSpaces rest
termination_by s => s.length
decreasing_by
  · have : (List.dropWhile isPySpace rest).length ≤ rest.length :=
      (List.dropWhile_sublist _).length_le
    simp only [List.length_cons, List.length_tail]
    omega
  · simp [Nat.lt_succ_self]

/-- `clean_markers_from_translation(translation)`: strip `【digits】` tokens,
collapse whitespace runs, and strip the ends. -/
def clean_markers_from_translation (translation : Str) : Str :=
  pyStrip (collapseSpaces (removeEncMarkers translation))

/-! ### Smart-Split Strategy (`smart_split_translation`) -/

/-- The per-segment slice length in the proportional case.  The source
computes `int(len(full_translation) * (len(text) / total))` in floating
point; it is modelled as the exact rational floor
`len(full_translation) * len(text) / total` (`int` truncation on a
non-negative value is the floor). -/
def segSliceLen (ftLen textLen total : Nat) : Nat :=
  ftLen * textLen / total

/-- The proportional loop of `smart_split_translation`: every segment but
the last takes the slice `[cursor, best_split_pos)` (stripped, falling back
to the original text when the strip is empty); the last segment takes the
whole remaining slice. -/
def smartSplitGo (ft : Str) (total : Nat) : List Segment → Nat → TransDict → TransDict
  | [], _, d => d
  | [s], current_pos, d =>
    let segment_translation := pyStrip (ft.drop current_pos)
    pyInsert d s.id (if segment_translation = [] then s.text else segment_translation)
  | s :: s' :: rest, current_pos, d =>
    let segment_length := segSliceLen ft.length s.text.length total
    let target_pos := current_pos + segment_length
    let best_split_pos := find_best_split_position ft target_pos current_pos
    let segment_translation := pyStrip (pySlice ft current_pos best_split_pos)
    smartSplitGo ft total (s' :: rest) best_split_pos
      (pyInsert d s.id
        (if segment_translation = [] then s.text else segment_translation))

/-- The degenerate loop of `smart_split_translation` (all original texts
empty): `n` equal slices of length `len // n`, the last slice absorbing the
remainder. -/
def smartSplitAvgGo (ft : Str) (avg_length n : Nat) : List Segment → Nat → TransDict → TransDict
  | [], _, d => d
  | s :: rest, i, d =>
    let start_pos := i * avg_length
    let end_pos := if i < n - 1 then (i + 1) * avg_length else ft.length
    smartSplitAvgGo ft avg_length n rest (i + 1)
      (pyInsert d s.id (pyStrip (pySlice ft start_pos end_pos)))

/-- `smart_split_translation(segments, full_translation)`: partition the
translated string proportionally to original text lengths, snapping each
cut with the Boundary Snapper. -/
def smart_split_translation (segs : List Segment) (full_translation : Str) : TransDict :=
  let total_original_chars := (segs.map (fun s => s.text.length)).sum
  if total_original_chars = 0 then
    smartSplitAvgGo full_translation (full_translation.length / segs.length)
      segs.length segs 0 []
  else smartSplitGo full_translation total_original_chars segs 0 []

/-- `translate_text_with_enhanced_markers(segments)`: Enhanced-Marker
strategy.  After extraction, if the dict covers every segment it is
returned; otherwise the markers are stripped and the Smart-Split strategy
runs on the cleaned text. -/
def translate_text_with_enhanced_markers (tr : Translator) (segs : List Segment) :
    Option TransDict :=
  if segs = [] then none
  else
    match tr (encMarkedText segs) with
    | none => none
    | some full_translation =>
      if full_translation = [] then none
      else
        let segment_translations := encExtract segs full_translation
        if segment_translations.length = segs.length then some segment_translations
        else some (smart_split_translation segs
          (clean_markers_from_translation full_translation))

/-! ### Orchestrator (`translate_text_robust`) -/

/-- `translate_and_smart_split(segments)`: translate the bare concatenation
of all segment texts, then Smart-Split the result; raises (modelled as
`none`) when the call fails or returns an empty string. -/
def translate_and_smart_split (tr : Translator) (segs : List Segment) : Option TransDict :=
  match tr ((segs.map (·.text)).flatten) with
  | none => none
  | some full_translation =>
    if full_translation = [] then none
    else some (smart_split_translation segs full_translation)

/-- The quality check `all(result[seg["id"]] == seg["text"] for seg in
segments)` with Python's evaluation order: `none` models a `KeyError`
raised before the generator short-circuits on a differing segment,
`some b` the value of `all(...)`. -/
def qualityScan (result : TransDict) : List Segment → Option Bool
  | [] => some true
  | s :: rest =>
    match dictLookup result s.id with
    | none => none
    | some v => if v = s.text then qualityScan result rest else some false

/-- The acceptance test of the orchestrator loop: the candidate is truthy,
has one entry per segment, and the quality scan finds a segment whose
translation differs from its original text (a `KeyError` during the scan is
caught by the surrounding `except` and rejects the candidate). -/
def strategyAccept (segs : List Segment) : Option TransDict → Bool
  | none => false
  | some result =>
    ¬result = [] ∧ result.length = segs.length ∧ qualityScan result segs = some false

/-- The identity mapping `{seg["id"]: seg["text"] for seg in segments}`. -/
def identityMapping (segs : List Segment) : TransDict :=
  segs.foldl (fun d s => pyInsert d s.id s.text) []

/-- `translate_text_robust(segments)`: the strategy orchestrator.  `none`
only for an empty input; a single segment is translated directly with the
original text substituted on any failure; otherwise the three strategies
run in fixed order, the first accepted candidate is returned, a raising
strategy (modelled by a `none` candidate) is skipped, and exhausting the
ladder yields the identity mapping. -/
def translate_text_robust (tr : Translator) (segs : List Segment) : Option TransDict :=
  if segs = [] then none
  else if h : segs.length = 1 then
    let s := segs.head (by intro hn; rw [hn] at h; simp at h)
    match tr s.text with
    | some translation =>
      if translation ≠ [] then some [(s.id, translation)]
      else some [(s.id, s.text)]
    | none => some [(s.id, s.text)]
  else
    let r1 := translate_text tr segs
    if strategyAccept segs r1 then r1
    else
      let r2 := translate_text_with_enhanced_markers tr segs
      if strategyAccept segs r2 then r2
      else
        let r3 := translate_and_smart_split tr segs
        if strategyAccept segs r3 then r3
        else some (identityMapping segs)

/-! ### Dictionary lemmas -/

theorem dictHasKey_iff_any (d : TransDict) (k : Nat) :
    dictHasKey d k ↔ d.any (fun p => p.1 == k) = true := by
  simp only [dictHasKey, List.any_eq_true, beq_iff_eq]
  constructor
  · rintro ⟨v, hv⟩; exact ⟨(k, v), hv, rfl⟩
  · rintro ⟨⟨k', v⟩, hp, hk⟩; cases hk; exact ⟨v, hp⟩

theorem pyInsert_fresh (d : TransDict) (k : Nat) (v : Str) (h : ¬ dictHasKey d k) :
    pyInsert d k v = d ++ [(k, v)] := by
  rw [pyInsert, if_neg]
  intro hc
  exact h ((dictHasKey_iff_any d k).mpr hc)

theorem dictHasKey_append (d e : TransDict) (k : Nat) :
    dictHasKey (d ++ e) k ↔ dictHasKey d k ∨ dictHasKey e k := by
  simp only [dictHasKey, List.mem_append]
  constructor
  · rintro ⟨v, hv | hv⟩
    · exact Or.inl ⟨v, hv⟩
    · exact Or.inr ⟨v, hv⟩
  · rintro (⟨v, hv⟩ | ⟨v, hv⟩)
    · exact ⟨v, Or.inl hv⟩
    · exact ⟨v, Or.inr hv⟩

theorem dictHasKey_nil (k : Nat) : ¬ dictHasKey ([] : TransDict) k := by
  rintro ⟨v, hv⟩; simp at hv

theorem dictHasKey_single (k j : Nat) (v : Str) :
    dictHasKey [(k, v)] j ↔ j = k := by
  simp only [dictHasKey, List.mem_singleton, Prod.mk.injEq]
  constructor
  · rintro ⟨w, hw, -⟩; exact hw
  · rintro rfl; exact ⟨v, rfl, rfl⟩

theorem dictHasKey_pyInsert (d : TransDict) (k j : Nat) (v : Str) :
    dictHasKey (pyInsert d k v) j ↔ j = k ∨ dictHasKey d j := by
  unfold pyInsert
  split
  case isTrue hmem =>
    constructor
    · rintro ⟨w, hw⟩
      rcases List.mem_map.mp hw with ⟨⟨k', v'⟩, hp, he⟩
      by_cases hk : k' = k
      · subst hk
        simp only [beq_self_eq_true, if_pos] at he
        cases he; exact Or.inl rfl
      · rw [if_neg (by simpa using hk)] at he
        cases he; exact Or.inr ⟨w, hp⟩
    · rintro (rfl | ⟨w, hw⟩)
      · rcases (dictHasKey_iff_any d j).mpr hmem with ⟨w, hw⟩
        exact ⟨v, List.mem_map.mpr ⟨(j, w), hw, by simp⟩⟩
      · by_cases hk : j = k
        · subst hk
          rcases (dictHasKey_iff_any d j).mpr hmem with ⟨u, hu⟩
          exact ⟨v, List.mem_map.mpr ⟨(j, u), hu, by simp⟩⟩
        · exact ⟨w, List.mem_map.mpr ⟨(j, w), hw, by simp [hk]⟩⟩
  case isFalse hmem =>
    rw [dictHasKey_append, dictHasKey_single]
    tauto

instance (d : TransDict) (k : Nat) : Decidable (dictHasKey d k) :=
  decidable_of_iff _ (dictHasKey_iff_any d k).symm

/-- Lookup in an appended dict searches the left part first. -/
theorem dictLookup_append (d e : TransDict) (k : Nat) :
    dictLookup (d ++ e) k =
      if dictHasKey d k then dictLookup d k else dictLookup e k := by
  unfold dictLookup
  rw [List.find?_append]
  by_cases h : dictHasKey d k
  · rw [if_pos h]
    cases hfind : d.find? (fun p => p.1 == k) with
    | none =>
      rcases List.any_eq_true.mp ((dictHasKey_iff_any d k).mp h) with ⟨p, hp, hpk⟩
      have := List.find?_eq_none.mp hfind p hp
      simp [hpk] at this
    | some q => simp
  · rw [if_neg h]
    have hnone : d.find? (fun p => p.1 == k) = none := by
      rw [List.find?_eq_none]
      intro p hp hpk
      exact h ⟨p.2, by
        have : p.1 = k := by simpa using hpk
        rw [← this]; exact hp⟩
    simp [hnone]

theorem dictLookup_nil (k : Nat) : dictLookup ([] : TransDict) k = none := rfl

theorem dictLookup_single (k j : Nat) (v : Str) :
    dictLookup [(k, v)] j = if j = k then some v else none := by
  unfold dictLookup
  by_cases h : j = k
  · subst h; simp [List.find?]
  · simp only [List.find?]
    rw [if_neg h]
    have : (fun p => p.1 == j) (k, v) = false := by simpa using Ne.symm h
    simp [this]

/-! ### Normal forms of the extraction loops -/

theorem foldlCongrFun {α β : Type} (f g : β → α → β) (l : List α) (d : β)
    (h : ∀ d a, f d a = g d a) : l.foldl f d = l.foldl g d := by
  induction l generalizing d with
  | nil => rfl
  | cons a l ih => simp only [List.foldl_cons, h, ih]

/-- A fold inserting one entry per segment, keyed by the segment's id. -/
def insertFold (V : Segment → Str) (segs : List Segment) (d : TransDict) : TransDict :=
  segs.foldl (fun d s => pyInsert d s.id (V s)) d

/-- The per-segment value computed by the Marker-Split extraction loop. -/
def markerValue (ft : Str) (s : Segment) : Str :=
  match strFind ft (markerOf s.id) 0 with
  | none => s.text
  | some start_pos =>
    pyStrip (pySlice ft (start_pos + (markerOf s.id).length)
      ((strFind ft (markerOf (s.id + 1)) start_pos).getD ft.length))

/-- The per-segment value computed by the Enhanced-Marker extraction loop. -/
def encValue (ft : Str) (s : Segment) : Str :=
  match strFind ft (encMarkerOf s.id) 0 with
  | none => s.text
  | some p1 =>
    match strFind ft (encMarkerOf s.id) (p1 + (encMarkerOf s.id).length) with
    | none => s.text
    | some p2 =>
      let t := pyStrip (pySlice ft (p1 + (encMarkerOf s.id).length) p2)
      if t = [] then s.text else t

theorem markerExtract_eq_insertFold (segs : List Segment) (ft : Str) :
    markerExtract segs ft = insertFold (markerValue ft) segs [] := by
  unfold markerExtract insertFold
  apply foldlCongrFun
  intro d s
  unfold markerValue
  cases h : strFind ft (markerOf s.id) 0 <;> simp [h]

theorem encExtract_eq_insertFold (segs : List Segment) (ft : Str) :
    encExtract segs ft = insertFold (encValue ft) segs [] := by
  unfold encExtract insertFold
  apply foldlCongrFun
  intro d s
  unfold encValue
  cases h1 : strFind ft (encMarkerOf s.id) 0
  · simp [h1]
  case some p1 =>
    cases h2 : strFind ft (encMarkerOf s.id) (p1 + (encMarkerOf s.id).length) <;>
      simp [h1, h2]

theorem identityMapping_eq_insertFold (segs : List Segment) :
    identityMapping segs = insertFold (fun s => s.text) segs [] := rfl

theorem insertFold_nil (V : Segment → Str) (d : TransDict) :
    insertFold V [] d = d := rfl

theorem insertFold_cons (V : Segment → Str) (s : Segment) (rest : List Segment)
    (d : TransDict) :
    insertFold V (s :: rest) d = insertFold V rest (pyInsert d s.id (V s)) := rfl

theorem insertFold_hasKey (V : Segment → Str) (segs : List Segment) (d : TransDict)
    (j : Nat) :
    dictHasKey (insertFold V segs d) j ↔ j ∈ segs.map (·.id) ∨ dictHasKey d j := by
  induction segs generalizing d with
  | nil => simp [insertFold_nil]
  | cons s rest ih =>
    rw [insertFold_cons, ih, dictHasKey_pyInsert]
    simp only [List.map_cons, List.mem_cons]
    tauto

/-- With pairwise-distinct fresh ids the insertion fold appends a plain
association list. -/
theorem insertFold_eq_append (V : Segment → Str) (segs : List Segment) (d : TransDict)
    (hnd : (segs.map (·.id)).Nodup) (hd : ∀ s ∈ segs, ¬ dictHasKey d s.id) :
    insertFold V segs d = d ++ segs.map (fun s => (s.id, V s)) := by
  induction segs generalizing d with
  | nil => simp [insertFold]
  | cons s rest ih =>
    rw [insertFold_cons]
    rw [List.map_cons, List.nodup_cons] at hnd
    have hfresh : ¬ dictHasKey d s.id := hd s (List.mem_cons_self s rest)
    rw [pyInsert_fresh d s.id (V s) hfresh]
    rw [ih (d ++ [(s.id, V s)]) hnd.2]
    · simp
    · intro t ht
      rw [dictHasKey_append, dictHasKey_single]
      rintro (h | h)
      · exact hd t (List.mem_cons_of_mem s ht) h
      · exact hnd.1 (h ▸ List.mem_map.mpr ⟨t, ht, rfl⟩)

theorem insertFold_length (V : Segment → Str) (segs : List Segment)
    (hnd : (segs.map (·.id)).Nodup) :
    (insertFold V segs []).length = segs.length := by
  rw [insertFold_eq_append V segs [] hnd (fun s _ => dictHasKey_nil s.id)]
  simp

/-- Lookup over a plain association list built from segments with distinct
ids. -/
theorem assocLookup_map (V : Segment → Str) (segs : List Segment)
    (hnd : (segs.map (·.id)).Nodup) (s : Segment) (hs : s ∈ segs) :
    dictLookup (segs.map (fun s => (s.id, V s))) s.id = some (V s) := by
  induction segs with
  | nil => simp at hs
  | cons t rest ih =>
    rw [List.map_cons, List.nodup_cons] at hnd
    rcases List.mem_cons.mp hs with rfl | hs
    · show dictLookup ((s.id, V s) :: _) s.id = some (V s)
      unfold dictLookup
      simp [List.find?]
    · show dictLookup ((t.id, V t) :: _) s.id = some (V s)
      unfold dictLookup
      have hne : (t.id == s.id) = false := by
        simp only [beq_eq_false_iff_ne, ne_eq]
        intro he
        exact hnd.1 (he ▸ List.mem_map.mpr ⟨s, hs, rfl⟩)
      simp only [List.find?, Prod.fst]
      rw [hne]
      exact ih hnd.2 hs

theorem insertFold_lookup (V : Segment → Str) (segs : List Segment)
    (hnd : (segs.map (·.id)).Nodup) (s : Segment) (hs : s ∈ segs) :
    dictLookup (insertFold V segs []) s.id = some (V s) := by
  rw [insertFold_eq_append V segs [] hnd (fun s _ => dictHasKey_nil s.id)]
  simpa using assocLookup_map V segs hnd s hs

theorem SegsWF.nodupIds {segs : List Segment} (h : SegsWF segs) :
    (segs.map (·.id)).Nodup := by
  rw [SegsWF] at h
  rw [h]
  exact List.nodup_range _

/-! ### Smart-Split slices and bounds -/

theorem findSplitScan_bounds (text : Str) (target_pos min_pos : Nat) (offs : List Nat)
    (hmin : min_pos < target_pos) (hlen : target_pos < text.length) :
    min_pos ≤ findSplitScan text target_pos min_pos offs ∧
      findSplitScan text target_pos min_pos offs ≤ text.length := by
  induction offs with
  | nil => exact ⟨Nat.le_of_lt hmin, Nat.le_of_lt hlen⟩
  | cons off rest ih =>
    rw [findSplitScan]
    split
    case isTrue h => omega
    case isFalse h =>
      split
      case isTrue h2 => omega
      case isFalse h2 => exact ih

theorem find_best_split_bounds (text : Str) (target_pos min_pos : Nat)
    (h : min_pos ≤ text.length) :
    min_pos ≤ find_best_split_position text target_pos min_pos ∧
      find_best_split_position text target_pos min_pos ≤ text.length := by
  rw [find_best_split_position]
  split
  case isTrue => exact ⟨h, Nat.le_refl _⟩
  case isFalse h1 =>
    split
    case isTrue h2 => exact ⟨Nat.le_refl _, h⟩
    case isFalse h2 =>
      exact findSplitScan_bounds text target_pos min_pos [0, 1, 2, 3, 4, 5]
        (Nat.lt_of_not_le h2) (Nat.lt_of_not_le h1)

/-- The slice boundaries computed by the proportional loop of
`smart_split_translation`, paired with their segments. -/
def smartSplitSlices (ft : Str) (total : Nat) :
    List Segment → Nat → List (Segment × Nat × Nat)
  | [], _ => []
  | [s], current_pos => [(s, current_pos, ft.length)]
  | s :: s' :: rest, current_pos =>
    let best := find_best_split_position ft
      (current_pos + segSliceLen ft.length s.text.length total) current_pos
    (s, current_pos, best) :: smartSplitSlices ft total (s' :: rest) best

/-- The slice boundaries computed by the degenerate (all-empty-originals)
loop of `smart_split_translation`. -/
def avgSlices (ft : Str) (avg_length n : Nat) :
    List Segment → Nat → List (Segment × Nat × Nat)
  | [], _ => []
  | s :: rest, i =>
    (s, i * avg_length, if i < n - 1 then (i + 1) * avg_length else ft.length) ::
      avgSlices ft avg_length n rest (i + 1)

/-- The untrimmed slice boundaries assigned to the segments by
`smart_split_translation`, in both of its cases. -/
def smartSplitAllSlices (segs : List Segment) (ft : Str) : List (Segment × Nat × Nat) :=
  let total := (segs.map (fun s => s.text.length)).sum
  if total = 0 then avgSlices ft (ft.length / segs.length) segs.length segs 0
  else smartSplitSlices ft total segs 0

theorem pySlice_to_length (s : Str) (a : Nat) : pySlice s a s.length = s.drop a := by
  unfold pySlice
  exact List.take_of_length_le (by simp)

theorem pySlice_append_drop (s : Str) (a b : Nat) (hab : a ≤ b) :
    pySlice s a b ++ s.drop b = s.drop a := by
  unfold pySlice
  have hb : s.drop b = (s.drop a).drop (b - a) := by
    rw [List.drop_drop]
    congr 1
    omega
  rw [hb]
  exact List.take_append_drop _ _

theorem smartSplitSlices_flatten (ft : Str) (total : Nat) (segs : List Segment)
    (cursor : Nat) (hne : segs ≠ []) (hc : cursor ≤ ft.length) :
    ((smartSplitSlices ft total segs cursor).map
      (fun p => pySlice ft p.2.1 p.2.2)).flatten = ft.drop cursor := by
  induction segs generalizing cursor with
  | nil => exact absurd rfl hne
  | cons s rest ih =>
    cases rest with
    | nil =>
      rw [smartSplitSlices]
      simp [pySlice_to_length]
    | cons s' rest2 =>
      rw [smartSplitSlices]
      have hb := find_best_split_bounds ft
        (cursor + segSliceLen ft.length s.text.length total) cursor hc
      simp only [List.map_cons, List.flatten_cons]
      rw [ih _ (by simp) hb.2]
      exact pySlice_append_drop ft cursor _ hb.1

theorem avgSlices_flatten (ft : Str) (avg_length n : Nat) (segs : List Segment)
    (i : Nat) (hne : segs ≠ []) (hn : i + segs.length = n) :
    ((avgSlices ft avg_length n segs i).map
      (fun p => pySlice ft p.2.1 p.2.2)).flatten = ft.drop (i * avg_length) := by
  induction segs generalizing i with
  | nil => exact absurd rfl hne
  | cons s rest ih =>
    cases rest with
    | nil =>
      rw [avgSlices, avgSlices]
      simp only [List.length_cons, List.length_nil] at hn
      have : ¬ i < n - 1 := by omega
      simp only [this, if_false, List.map_cons, List.map_nil, List.flatten_cons,
        List.flatten_nil, List.append_nil]
      rw [pySlice_to_length]
    | cons s2 rest2 =>
      rw [avgSlices]
      have hlt : i < n - 1 := by
        simp only [List.length_cons] at hn
        omega
      simp only [hlt, if_true, List.map_cons, List.flatten_cons]
      rw [ih (i + 1) (by simp) (by simp at hn ⊢; omega)]
      exact pySlice_append_drop ft _ _ (Nat.mul_le_mul_right _ (by omega))

/-- Partition coverage: the untrimmed slices of `smart_split_translation`
concatenate back to the full translated string. -/
theorem smartSplitAllSlices_flatten (segs : List Segment) (ft : Str) (hne : segs ≠ []) :
    ((smartSplitAllSlices segs ft).map
      (fun p => pySlice ft p.2.1 p.2.2)).flatten = ft := by
  by_cases h : (segs.map (fun s => s.text.length)).sum = 0
  · have h0 := avgSlices_flatten ft (ft.length / segs.length) segs.length segs 0 hne
      (by simp)
    simp only [smartSplitAllSlices]
    rw [if_pos h]
    simpa using h0
  · have h0 := smartSplitSlices_flatten ft ((segs.map (fun s => s.text.length)).sum)
      segs 0 hne (by simp)
    simp only [smartSplitAllSlices]
    rw [if_neg h]
    simpa using h0

/-! ### Normal form of `smart_split_translation` -/

theorem smartSplitGo_hasKey (ft : Str) (total : Nat) (segs : List Segment)
    (cursor : Nat) (d : TransDict) (j : Nat) :
    dictHasKey (smartSplitGo ft total segs cursor d) j ↔
      j ∈ segs.map (·.id) ∨ dictHasKey d j := by
  induction segs generalizing cursor d with
  | nil => simp [smartSplitGo]
  | cons s rest ih =>
    cases rest with
    | nil =>
      rw [smartSplitGo, dictHasKey_pyInsert]
      simp only [List.map_cons, List.map_nil, List.mem_cons, List.not_mem_nil]
      tauto
    | cons s' rest2 =>
      rw [smartSplitGo, ih, dictHasKey_pyInsert]
      simp only [List.map_cons, List.mem_cons]
      tauto

theorem smartSplitAvgGo_hasKey (ft : Str) (avg_length n : Nat) (segs : List Segment)
    (i : Nat) (d : TransDict) (j : Nat) :
    dictHasKey (smartSplitAvgGo ft avg_length n segs i d) j ↔
      j ∈ segs.map (·.id) ∨ dictHasKey d j := by
  induction segs generalizing i d with
  | nil => simp [smartSplitAvgGo]
  | cons s rest ih =>
    rw [smartSplitAvgGo, ih, dictHasKey_pyInsert]
    simp only [List.map_cons, List.mem_cons]
    tauto

/-- Key set of the Smart-Split result: exactly the input segment ids. -/
theorem smart_split_hasKey (segs : List Segment) (ft : Str) (j : Nat) :
    dictHasKey (smart_split_translation segs ft) j ↔ j ∈ segs.map (·.id) := by
  by_cases h : (segs.map (fun s => s.text.length)).sum = 0
  · simp only [smart_split_translation]
    rw [if_pos h, smartSplitAvgGo_hasKey]
    simp [dictHasKey_nil j]
  · simp only [smart_split_translation]
    rw [if_neg h, smartSplitGo_hasKey]
    simp [dictHasKey_nil j]

/-- The per-segment value derived from a computed slice in the proportional
case of `smart_split_translation`. -/
def sliceValue (ft : Str) (p : Segment × Nat × Nat) : Nat × Str :=
  let t := pyStrip (pySlice ft p.2.1 p.2.2)
  (p.1.id, if t = [] then p.1.text else t)

theorem smartSplitGo_eq_append (ft : Str) (total : Nat) (segs : List Segment)
    (cursor : Nat) (d : TransDict)
    (hnd : (segs.map (·.id)).Nodup) (hd : ∀ s ∈ segs, ¬ dictHasKey d s.id) :
    smartSplitGo ft total segs cursor d =
      d ++ (smartSplitSlices ft total segs cursor).map (sliceValue ft) := by
  induction segs generalizing cursor d with
  | nil => simp [smartSplitGo, smartSplitSlices]
  | cons s rest ih =>
    cases rest with
    | nil =>
      rw [smartSplitGo, smartSplitSlices]
      rw [pyInsert_fresh _ _ _ (hd s (List.mem_cons_self s []))]
      simp only [List.map_cons, List.map_nil]
      rw [sliceValue, pySlice_to_length]
    | cons s' rest2 =>
      rw [smartSplitGo, smartSplitSlices]
      rw [List.map_cons, List.nodup_cons] at hnd
      rw [pyInsert_fresh _ _ _ (hd s (List.mem_cons_self s (s' :: rest2)))]
      rw [ih _ _ hnd.2]
      · simp [sliceValue]
      · intro t ht
        rw [dictHasKey_append, dictHasKey_single]
        rintro (h | h)
        · exact hd t (List.mem_cons_of_mem s ht) h
        · exact hnd.1 (h ▸ List.mem_map.mpr ⟨t, ht, rfl⟩)

/-- The per-segment value in the degenerate case (no fallback in the
source: the stripped slice is stored as-is). -/
def avgSliceValue (ft : Str) (p : Segment × Nat × Nat) : Nat × Str :=
  (p.1.id, pyStrip (pySlice ft p.2.1 p.2.2))

theorem smartSplitAvgGo_eq_append (ft : Str) (avg_length n : Nat)
    (segs : List Segment) (i : Nat) (d : TransDict)
    (hnd : (segs.map (·.id)).Nodup) (hd : ∀ s ∈ segs, ¬ dictHasKey d s.id) :
    smartSplitAvgGo ft avg_length n segs i d =
      d ++ (avgSlices ft avg_length n segs i).map (avgSliceValue ft) := by
  induction segs generalizing i d with
  | nil => simp [smartSplitAvgGo, avgSlices]
  | cons s rest ih =>
    rw [smartSplitAvgGo, avgSlices]
    rw [List.map_cons, List.nodup_cons] at hnd
    rw [pyInsert_fresh _ _ _ (hd s (List.mem_cons_self s rest))]
    rw [ih _ _ hnd.2]
    · simp [avgSliceValue]
    · intro t ht
      rw [dictHasKey_append, dictHasKey_single]
      rintro (h | h)
      · exact hd t (List.mem_cons_of_mem s ht) h
      · exact hnd.1 (h ▸ List.mem_map.mpr ⟨t, ht, rfl⟩)

/-- With non-empty original texts the degenerate branch is unreachable and
`smart_split_translation` is exactly the slice-derived association list. -/
theorem smart_split_eq_sliceValues (segs : List Segment) (ft : Str)
    (hnd : (segs.map (·.id)).Nodup) (hne : segs ≠ [])
    (htexts : ∀ s ∈ segs, s.text ≠ []) :
    smart_split_translation segs ft =
      (smartSplitAllSlices segs ft).map (sliceValue ft) := by
  have htot : (segs.map (fun s => s.text.length)).sum ≠ 0 := by
    cases segs with
    | nil => exact absurd rfl hne
    | cons s rest =>
      have hs := htexts s (List.mem_cons_self s rest)
      simp only [List.map_cons, List.sum_cons]
      have : s.text.length ≠ 0 := by
        intro h0
        exact hs (List.eq_nil_of_length_eq_zero h0)
      omega
  unfold smart_split_translation smartSplitAllSlices
  rw [if_neg htot, if_neg htot]
  exact smartSplitGo_eq_append ft _ segs 0 [] hnd (fun s _ => dictHasKey_nil s.id)

/-! ### Lookup and quality-scan lemmas -/

theorem assocLookup_map_generic {α : Type} (key : α → Nat) (val : α → Str) (l : List α)
    (hnd : (l.map key).Nodup) (x : α) (hx : x ∈ l) :
    dictLookup (l.map (fun a => (key a, val a))) (key x) = some (val x) := by
  induction l with
  | nil => simp at hx
  | cons t rest ih =>
    rw [List.map_cons, List.nodup_cons] at hnd
    rcases List.mem_cons.mp hx with rfl | hx
    · show dictLookup ((key x, val x) :: _) (key x) = some (val x)
      unfold dictLookup
      simp [List.find?]
    · show dictLookup ((key t, val t) :: _) (key x) = some (val x)
      unfold dictLookup
      have hne : (key t == key x) = false := by
        simp only [beq_eq_false_iff_ne, ne_eq]
        intro he
        exact hnd.1 (he ▸ List.mem_map.mpr ⟨x, hx, rfl⟩)
      simp only [List.find?, Prod.fst]
      rw [hne]
      exact ih hnd.2 hx

theorem smartSplitSlices_fst (ft : Str) (total : Nat) (segs : List Segment)
    (cursor : Nat) : (smartSplitSlices ft total segs cursor).map (·.1) = segs := by
  induction segs generalizing cursor with
  | nil => simp [smartSplitSlices]
  | cons s rest ih =>
    cases rest with
    | nil => simp [smartSplitSlices]
    | cons s' rest2 =>
      rw [smartSplitSlices]
      simp only [List.map_cons, List.cons.injEq]
      exact ⟨trivial, ih _⟩

theorem avgSlices_fst (ft : Str) (avg_length n : Nat) (segs : List Segment) (i : Nat) :
    (avgSlices ft avg_length n segs i).map (·.1) = segs := by
  induction segs generalizing i with
  | nil => simp [avgSlices]
  | cons s rest ih =>
    rw [avgSlices]
    simp only [List.map_cons, List.cons.injEq]
    exact ⟨trivial, ih _⟩

theorem smartSplitAllSlices_fst (segs : List Segment) (ft : Str) :
    (smartSplitAllSlices segs ft).map (·.1) = segs := by
  by_cases h : (segs.map (fun s => s.text.length)).sum = 0
  · simp only [smartSplitAllSlices]
    rw [if_pos h]
    exact avgSlices_fst _ _ _ _ _
  · simp only [smartSplitAllSlices]
    rw [if_neg h]
    exact smartSplitSlices_fst _ _ _ _

theorem qualityScan_true_iff (d : TransDict) (segs : List Segment)
    (h : ∀ s ∈ segs, ∃ v, dictLookup d s.id = some v) :
    qualityScan d segs = some true ↔ ∀ s ∈ segs, dictLookup d s.id = some s.text := by
  induction segs with
  | nil => simp [qualityScan]
  | cons s rest ih =>
    rcases h s (List.mem_cons_self s rest) with ⟨v, hv⟩
    simp only [qualityScan, hv]
    by_cases hvs : v = s.text
    · subst hvs
      rw [if_pos rfl, ih (fun t ht => h t (List.mem_cons_of_mem s ht))]
      constructor
      · intro hall t ht
        rcases List.mem_cons.mp ht with rfl | ht
        · exact hv
        · exact hall t ht
      · intro hall t ht
        exact hall t (List.mem_cons_of_mem s ht)
    · rw [if_neg hvs]
      constructor
      · intro hfalse; cases hfalse
      · intro hall
        have := hall s (List.mem_cons_self s rest)
        rw [hv] at this
        exact absurd (Option.some.inj this) hvs

theorem qualityScan_false_iff (d : TransDict) (segs : List Segment)
    (h : ∀ s ∈ segs, ∃ v, dictLookup d s.id = some v) :
    qualityScan d segs = some false ↔ ∃ s ∈ segs, dictLookup d s.id ≠ some s.text := by
  induction segs with
  | nil => simp [qualityScan]
  | cons s rest ih =>
    rcases h s (List.mem_cons_self s rest) with ⟨v, hv⟩
    simp only [qualityScan, hv]
    by_cases hvs : v = s.text
    · subst hvs
      rw [if_pos rfl, ih (fun t ht => h t (List.mem_cons_of_mem s ht))]
      constructor
      · rintro ⟨t, ht, hne⟩
        exact ⟨t, List.mem_cons_of_mem s ht, hne⟩
      · rintro ⟨t, ht, hne⟩
        rcases List.mem_cons.mp ht with rfl | ht
        · exact absurd hv hne
        · exact ⟨t, ht, hne⟩
    · rw [if_neg hvs]
      constructor
      · intro
        refine ⟨s, List.mem_cons_self s rest, ?_⟩
        rw [hv]
        intro he
        exact hvs (Option.some.inj he)
      · intro; rfl

/-! ### Strategy result shapes -/

theorem translate_text_eq_some (tr : Translator) (segs : List Segment) (m : TransDict)
    (h : translate_text tr segs = some m) :
    ∃ ft, tr (markedText segs) = some ft ∧ ft ≠ [] ∧ m = markerExtract segs ft := by
  unfold translate_text at h
  split at h
  · cases h
  · revert h
    cases htr : tr (markedText segs) with
    | none => intro h; cases h
    | some ft =>
      intro h
      dsimp only at h
      split at h
      · cases h
      case isFalse hft => exact ⟨ft, rfl, hft, (Option.some.inj h).symm⟩

theorem enhanced_eq_some (tr : Translator) (segs : List Segment) (m : TransDict)
    (h : translate_text_with_enhanced_markers tr segs = some m) :
    ∃ ft, tr (encMarkedText segs) = some ft ∧ ft ≠ [] ∧
      (m = encExtract segs ft ∨
        m = smart_split_translation segs (clean_markers_from_translation ft)) := by
  unfold translate_text_with_enhanced_markers at h
  split at h
  · cases h
  · revert h
    cases htr : tr (encMarkedText segs) with
    | none => intro h; cases h
    | some ft =>
      intro h
      dsimp only at h
      split at h
      · cases h
      case isFalse hft =>
        split at h
        · exact ⟨ft, rfl, hft, Or.inl (Option.some.inj h).symm⟩
        · exact ⟨ft, rfl, hft, Or.inr (Option.some.inj h).symm⟩

/-- Claim C4: for every non-empty segment sequence, each strategy that
returns a mapping (Marker-Split, Enhanced-Marker, Smart-Split) returns a
mapping whose key set is exactly the set of input segment ids. -/
theorem marker_enhanced_smart_key_sets (tr : Translator) (segs : List Segment)
    (hne : segs ≠ []) :
    (∀ m, translate_text tr segs = some m →
      ∀ k, dictHasKey m k ↔ k ∈ segs.map (·.id)) ∧
    (∀ m, translate_text_with_enhanced_markers tr segs = some m →
      ∀ k, dictHasKey m k ↔ k ∈ segs.map (·.id)) ∧
    (∀ ft k, dictHasKey (smart_split_translation segs ft) k ↔ k ∈ segs.map (·.id)) := by
  refine ⟨?_, ?_, ?_⟩
  · intro m hm k
    rcases translate_text_eq_some tr segs m hm with ⟨ft, -, -, rfl⟩
    rw [markerExtract_eq_insertFold, insertFold_hasKey]
    simp [dictHasKey_nil k]
  · intro m hm k
    rcases enhanced_eq_some tr segs m hm with ⟨ft, -, -, hcase⟩
    rcases hcase with rfl | rfl
    · rw [encExtract_eq_insertFold, insertFold_hasKey]
      simp [dictHasKey_nil k]
    · exact smart_split_hasKey segs _ k
  · intro ft k
    exact smart_split_hasKey segs ft k

/-- Witness for C4 at a concrete input. -/
theorem marker_enhanced_smart_key_sets_witness :
    dictHasKey (smart_split_translation [⟨0, ['a']⟩, ⟨1, ['b']⟩] ['x', 'y']) 1 ↔
      1 ∈ ([⟨0, ['a']⟩, ⟨1, ['b']⟩] : List Segment).map (·.id) :=
  (marker_enhanced_smart_key_sets (fun s => some s) [⟨0, ['a']⟩, ⟨1, ['b']⟩]
    (by simp)).2.2 ['x', 'y'] 1

/-- Claim C5: the untrimmed slices assigned by Smart-Split concatenate back
to the full translated string (degenerate and proportional case alike), and
the returned mapping is derived from exactly these slices. -/
theorem smart_split_partition (segs : List Segment) (ft : Str)
    (hne : segs ≠ []) (hnd : (segs.map (·.id)).Nodup) :
    ((smartSplitAllSlices segs ft).map
      (fun p => pySlice ft p.2.1 p.2.2)).flatten = ft ∧
    smart_split_translation segs ft =
      (if (segs.map (fun s => s.text.length)).sum = 0
       then (smartSplitAllSlices segs ft).map (avgSliceValue ft)
       else (smartSplitAllSlices segs ft).map (sliceValue ft)) := by
  refine ⟨smartSplitAllSlices_flatten segs ft hne, ?_⟩
  by_cases h : (segs.map (fun s => s.text.length)).sum = 0
  · rw [if_pos h]
    simp only [smart_split_translation, smartSplitAllSlices]
    rw [if_pos h, if_pos h]
    exact smartSplitAvgGo_eq_append ft _ _ segs 0 [] hnd (fun s _ => dictHasKey_nil s.id)
  · rw [if_neg h]
    simp only [smart_split_translation, smartSplitAllSlices]
    rw [if_neg h, if_neg h]
    exact smartSplitGo_eq_append ft _ segs 0 [] hnd (fun s _ => dictHasKey_nil s.id)

/-- Witness for C5 at a concrete input. -/
theorem smart_split_partition_witness :
    ((smartSplitAllSlices [⟨0, ['a', 'b']⟩, ⟨1, ['c']⟩] ['x', ' ', 'y']).map
      (fun p => pySlice ['x', ' ', 'y'] p.2.1 p.2.2)).flatten = ['x', ' ', 'y'] :=
  (smart_split_partition [⟨0, ['a', 'b']⟩, ⟨1, ['c']⟩] ['x', ' ', 'y']
    (by simp) (by decide)).1

/-- Claim C6: in Smart-Split (with the data model's non-empty texts), a
slice that strips to empty falls back to the segment's own original text,
and no returned value is the empty string. -/
theorem smart_split_empty_fallback (segs : List Segment) (ft : Str)
    (hne : segs ≠ []) (hnd : (segs.map (·.id)).Nodup)
    (htexts : ∀ s ∈ segs, s.text ≠ []) :
    (∀ p ∈ smartSplitAllSlices segs ft,
      pyStrip (pySlice ft p.2.1 p.2.2) = [] →
        dictLookup (smart_split_translation segs ft) p.1.id = some p.1.text) ∧
    (∀ q ∈ smart_split_translation segs ft, q.2 ≠ []) := by
  have hform := smart_split_eq_sliceValues segs ft hnd hne htexts
  have hsegs1 : (smartSplitAllSlices segs ft).map (·.1) = segs :=
    smartSplitAllSlices_fst segs ft
  have hkeys : ((smartSplitAllSlices segs ft).map (fun p => p.1.id)).Nodup := by
    have : (smartSplitAllSlices segs ft).map (fun p => p.1.id) =
        ((smartSplitAllSlices segs ft).map (·.1)).map (·.id) := by
      rw [List.map_map]; rfl
    rw [this, hsegs1]
    exact hnd
  constructor
  · intro p hp hstrip
    rw [hform]
    refine (assocLookup_map_generic (fun p => p.1.id)
      (fun p => if pyStrip (pySlice ft p.2.1 p.2.2) = [] then p.1.text
        else pyStrip (pySlice ft p.2.1 p.2.2))
      (smartSplitAllSlices segs ft) hkeys p hp).trans ?_
    show some (if pyStrip (pySlice ft p.2.1 p.2.2) = [] then p.1.text
      else pyStrip (pySlice ft p.2.1 p.2.2)) = some p.1.text
    rw [if_pos hstrip]
  · intro q hq
    rw [hform] at hq
    rcases List.mem_map.mp hq with ⟨p, hp, rfl⟩
    have hpseg : p.1 ∈ segs := by
      rw [← hsegs1]
      exact List.mem_map.mpr ⟨p, hp, rfl⟩
    show (if pyStrip (pySlice ft p.2.1 p.2.2) = []
      then p.1.text else pyStrip (pySlice ft p.2.1 p.2.2)) ≠ []
    split
    · exact htexts p.1 hpseg
    case isFalse hnz => exact hnz

/-- Witness for C6 at a concrete input: the first returned value of a
concrete Smart-Split run is non-empty. -/
theorem smart_split_empty_fallback_witness :
    (((0 : Nat), (['a'] : Str)).2 : Str) ≠ [] :=
  (smart_split_empty_fallback [⟨0, ['a']⟩, ⟨1, ['b']⟩] ['x'] (by simp) (by decide)
    (by decide)).2 ((0 : Nat), (['a'] : Str)) (by decide)

/-! ### Orchestrator claims -/

/-- Claim C7: with exactly one segment the Orchestrator skips the ladder
and translates the segment's text directly; a successful non-empty
translation is returned keyed by the segment's id, and any failure (raised
exception, error message, empty or missing result) yields the segment's
original text — this path always returns a mapping. -/
theorem single_segment_fast_path (tr : Translator) (s : Segment) :
    (∀ t, tr s.text = some t → t ≠ [] →
      translate_text_robust tr [s] = some [(s.id, t)]) ∧
    ((tr s.text = none ∨ tr s.text = some []) →
      translate_text_robust tr [s] = some [(s.id, s.text)]) := by
  constructor
  · intro t ht hne
    unfold translate_text_robust
    rw [if_neg (by simp), dif_pos (by simp)]
    dsimp only
    rw [List.head_cons, ht]
    dsimp only
    rw [if_pos hne]
  · intro hfail
    unfold translate_text_robust
    rw [if_neg (by simp), dif_pos (by simp)]
    dsimp only
    rw [List.head_cons]
    rcases hfail with hf | hf
    · rw [hf]
    · rw [hf]
      dsimp only
      rw [if_neg (by simp)]

/-- Witness for C7: a raising translator on a single segment returns the
original text. -/
theorem single_segment_fast_path_witness :
    translate_text_robust (fun _ => none) [⟨0, ['h', 'i']⟩] = some [(0, ['h', 'i'])] :=
  (single_segment_fast_path (fun _ => none) ⟨0, ['h', 'i']⟩).2 (Or.inl rfl)

/-- Claim C1: with more than one segment, if no strategy produces an
accepted candidate the Orchestrator returns the identity mapping (each
segment id mapped to its own original text) — the ladder ends in a value,
not an exception. -/
theorem all_strategies_exhausted_identity (tr : Translator) (segs : List Segment)
    (hwf : SegsWF segs) (hlen : 1 < segs.length)
    (h1 : strategyAccept segs (translate_text tr segs) = false)
    (h2 : strategyAccept segs (translate_text_with_enhanced_markers tr segs) = false)
    (h3 : strategyAccept segs (translate_and_smart_split tr segs) = false) :
    translate_text_robust tr segs = some (identityMapping segs) ∧
    ∀ s ∈ segs, dictLookup (identityMapping segs) s.id = some s.text := by
  constructor
  · unfold translate_text_robust
    rw [if_neg (by intro he; rw [he] at hlen; simp at hlen),
      dif_neg (by omega)]
    dsimp only
    rw [h1, h2, h3]
    simp
  · intro s hs
    rw [identityMapping_eq_insertFold]
    exact insertFold_lookup (fun s => s.text) segs hwf.nodupIds s hs

/-- Witness for C1: a raising translator with two segments yields the
identity mapping. -/
theorem all_strategies_exhausted_identity_witness :
    translate_text_robust (fun _ => none) [⟨0, ['x']⟩, ⟨1, ['y']⟩] =
      some (identityMapping [⟨0, ['x']⟩, ⟨1, ['y']⟩]) :=
  (all_strategies_exhausted_identity (fun _ => none) [⟨0, ['x']⟩, ⟨1, ['y']⟩]
    (by decide) (by decide) (by decide) (by decide) (by decide)).1

/-! ### Boundary Snapper scan order (C8) -/

/-- A probe of the snap window: `(forward?, offset)`. -/
def probeHit (text : Str) (target_pos min_pos : Nat) (p : Bool × Nat) : Bool :=
  if p.1 then target_pos + p.2 < text.length && isSplitAt text (target_pos + p.2)
  else min_pos < target_pos - p.2 && isSplitAt text (target_pos - p.2)

/-- The probe sequence actually implemented by the loop of
`find_best_split_position` for a given offset list: at offset 0 only the
forward probe, at each later offset the forward probe first and then the
backward probe, offsets in ascending order. -/
def probesOf : List Nat → List (Bool × Nat)
  | [] => []
  | off :: rest =>
    (if off = 0 then [(true, 0)] else [(true, off), (false, off)]) ++ probesOf rest

/-- The result of the first hitting probe (`position + 1`), or `target_pos`
when no probe hits. -/
def probeResult (text : Str) (target_pos min_pos : Nat) (probes : List (Bool × Nat)) : Nat :=
  match probes.find? (probeHit text target_pos min_pos) with
  | some p => (if p.1 then target_pos + p.2 else target_pos - p.2) + 1
  | none => target_pos

theorem findSplitScan_eq_probeResult (text : Str) (target_pos min_pos : Nat)
    (offs : List Nat) :
    findSplitScan text target_pos min_pos offs =
      probeResult text target_pos min_pos (probesOf offs) := by
  induction offs with
  | nil => rfl
  | cons off rest ih =>
    rw [findSplitScan, probesOf]
    by_cases h0 : off = 0
    · subst h0
      rw [if_pos rfl]
      by_cases hfwd : target_pos + 0 < text.length ∧ isSplitAt text (target_pos + 0)
      · rw [if_pos hfwd]
        have hhit : probeHit text target_pos min_pos (true, 0) = true := by
          simp only [probeHit]
          rw [if_pos trivial, Bool.and_eq_true]
          exact ⟨decide_eq_true hfwd.1, hfwd.2⟩
        simp [probeResult, List.find?, hhit]
      · rw [if_neg hfwd, if_neg (by omega)]
        have hhit : probeHit text target_pos min_pos (true, 0) = false := by
          simp only [probeHit]
          rw [if_pos trivial, Bool.eq_false_iff]
          intro hc
          rw [Bool.and_eq_true] at hc
          exact hfwd ⟨of_decide_eq_true hc.1, hc.2⟩
        rw [ih]
        simp [probeResult, List.find?, hhit]
    · rw [if_neg h0]
      by_cases hfwd : target_pos + off < text.length ∧ isSplitAt text (target_pos + off)
      · rw [if_pos hfwd]
        have hhit : probeHit text target_pos min_pos (true, off) = true := by
          simp only [probeHit]
          rw [if_pos trivial, Bool.and_eq_true]
          exact ⟨decide_eq_true hfwd.1, hfwd.2⟩
        simp [probeResult, List.find?, hhit]
      · rw [if_neg hfwd]
        have hhit : probeHit text target_pos min_pos (true, off) = false := by
          simp only [probeHit]
          rw [if_pos trivial, Bool.eq_false_iff]
          intro hc
          rw [Bool.and_eq_true] at hc
          exact hfwd ⟨of_decide_eq_true hc.1, hc.2⟩
        by_cases hbwd : min_pos < target_pos - off ∧ isSplitAt text (target_pos - off)
        · rw [if_pos ⟨Nat.pos_of_ne_zero h0, hbwd.1, hbwd.2⟩]
          have hhit2 : probeHit text target_pos min_pos (false, off) = true := by
            simp only [probeHit]
            rw [if_neg (by simp), Bool.and_eq_true]
            exact ⟨decide_eq_true hbwd.1, hbwd.2⟩
          simp [probeResult, List.find?, hhit, hhit2]
        · rw [if_neg (by tauto)]
          have hhit2 : probeHit text target_pos min_pos (false, off) = false := by
            simp only [probeHit]
            rw [if_neg (by simp), Bool.eq_false_iff]
            intro hc
            rw [Bool.and_eq_true] at hc
            exact hbwd ⟨of_decide_eq_true hc.1, hc.2⟩
          rw [ih]
          simp [probeResult, List.find?, hhit, hhit2]

/-- Claim C8 (amended): inside the window the snapper examines probe
positions in the interleaved order `+0, +1, −1, +2, −2, …, +5, −5`
(forward before backward at each offset, offsets ascending), a backward
probe is valid only strictly above `min_pos`, a forward probe only below
the text length, and the first hit returns that position plus one,
otherwise `target_pos`. -/
theorem boundary_snap_interleaved_order (text : Str) (target_pos min_pos : Nat)
    (hmin : min_pos < target_pos) (hlen : target_pos < text.length) :
    find_best_split_position text target_pos min_pos =
      probeResult text target_pos min_pos
        [(true, 0), (true, 1), (false, 1), (true, 2), (false, 2), (true, 3),
         (false, 3), (true, 4), (false, 4), (true, 5), (false, 5)] := by
  rw [find_best_split_position, if_neg (by omega), if_neg (by omega),
    findSplitScan_eq_probeResult]
  rfl

/-- Counterexample to C8 as stated: at `target_pos = 3` in `"ab cd x"` the
forward position `3 + 2 = 5` holds a boundary character inside the window,
yet the snapper returns `3` — the backward hit at position `2` plus one —
because the loop interleaves directions instead of exhausting the forward
scan first (the claim demands `5 + 1 = 6`). -/
theorem boundary_snap_forward_priority_counterexample :
    find_best_split_position ['a', 'b', ' ', 'c', 'd', ' ', 'x'] 3 0 = 3 ∧
    (3 + 2 < List.length ['a', 'b', ' ', 'c', 'd', ' ', 'x'] ∧
      isSplitAt ['a', 'b', ' ', 'c', 'd', ' ', 'x'] (3 + 2) = true) ∧
    (3 : Nat) ≠ 3 + 2 + 1 := by decide

/-- Witness for the amended C8 at a concrete input. -/
theorem boundary_snap_interleaved_order_witness :
    find_best_split_position ['a', 'b', ' ', 'c', 'd', ' ', 'x'] 3 0 =
      probeResult ['a', 'b', ' ', 'c', 'd', ' ', 'x'] 3 0
        [(true, 0), (true, 1), (false, 1), (true, 2), (false, 2), (true, 3),
         (false, 3), (true, 4), (false, 4), (true, 5), (false, 5)] :=
  boundary_snap_interleaved_order ['a', 'b', ' ', 'c', 'd', ' ', 'x'] 3 0
    (by decide) (by decide)

/-! ### Enhanced-Marker escalation (C3) -/

/-- Claim C3 (code evidence): every iteration of the enhanced extraction
loop inserts an entry for its segment — the unresolved-marker branches
insert the original text — so with distinct ids the completeness check
`len(segment_translations) == len(segments)` always passes and the
marker-strip + Smart-Split escalation branch is unreachable: whenever the
translator call succeeds the strategy returns the (possibly partially
marker-derived) extraction as-is. -/
theorem enhanced_no_partial_escalation (tr : Translator) (segs : List Segment)
    (hne : segs ≠ []) (hnd : (segs.map (·.id)).Nodup) (ft : Str)
    (htr : tr (encMarkedText segs) = some ft) (hft : ft ≠ []) :
    translate_text_with_enhanced_markers tr segs = some (encExtract segs ft) := by
  unfold translate_text_with_enhanced_markers
  rw [if_neg hne, htr]
  dsimp only
  rw [if_neg hft]
  rw [if_pos]
  rw [encExtract_eq_insertFold]
  exact insertFold_length (encValue ft) segs hnd

/-- Witness for C3 at the failing input: two segments, the translator
output keeps both `【0】` occurrences but loses the `【1】` pair; the strategy
returns `{0: "Alpha", 1: "B"}` — the partially marker-derived mapping with
a per-segment fallback — rather than stripping markers and delegating to
Smart-Split as the spec prescribes. -/
theorem enhanced_no_partial_escalation_witness :
    translate_text_with_enhanced_markers
      (fun _ => some ('【' :: '0' :: '】' :: 'A' :: 'l' :: 'p' :: 'h' :: 'a' ::
        '【' :: '0' :: '】' :: ' ' :: 'B' :: 'e' :: 't' :: 'a' :: []))
      [⟨0, ['A']⟩, ⟨1, ['B']⟩] =
      some [(0, ['A', 'l', 'p', 'h', 'a']), (1, ['B'])] :=
  (enhanced_no_partial_escalation
    (fun _ => some ('【' :: '0' :: '】' :: 'A' :: 'l' :: 'p' :: 'h' :: 'a' ::
      '【' :: '0' :: '】' :: ' ' :: 'B' :: 'e' :: 't' :: 'a' :: []))
    [⟨0, ['A']⟩, ⟨1, ['B']⟩] (by simp) (by decide) _ rfl (by decide)).trans
    (by decide)

/-! ### Orchestrator acceptance (C2) -/

theorem dictLookup_isSome_of_hasKey (d : TransDict) (k : Nat)
    (h : dictHasKey d k) : ∃ v, dictLookup d k = some v := by
  unfold dictLookup
  cases hfind : d.find? (fun p => p.1 == k) with
  | none =>
    rcases List.any_eq_true.mp ((dictHasKey_iff_any d k).mp h) with ⟨p, hp, hpk⟩
    have := List.find?_eq_none.mp hfind p hp
    simp [hpk] at this
  | some q => exact ⟨q.2, rfl⟩

theorem insertFold_keysList (V : Segment → Str) (segs : List Segment)
    (hnd : (segs.map (·.id)).Nodup) :
    (insertFold V segs []).map Prod.fst = segs.map (·.id) := by
  rw [insertFold_eq_append V segs [] hnd (fun s _ => dictHasKey_nil s.id)]
  simp

theorem smart_split_keysList (segs : List Segment) (ft : Str)
    (hnd : (segs.map (·.id)).Nodup) :
    (smart_split_translation segs ft).map Prod.fst = segs.map (·.id) := by
  by_cases h : (segs.map (fun s => s.text.length)).sum = 0
  · simp only [smart_split_translation]
    rw [if_pos h,
      smartSplitAvgGo_eq_append _ _ _ segs 0 [] hnd (fun s _ => dictHasKey_nil s.id)]
    have h1 : ((avgSlices ft (ft.length / segs.length) segs.length segs 0).map
        (avgSliceValue ft)).map Prod.fst =
        ((avgSlices ft (ft.length / segs.length) segs.length segs 0).map (·.1)).map
          (·.id) := by
      rw [List.map_map, List.map_map]; rfl
    rw [List.nil_append, h1, avgSlices_fst]
  · simp only [smart_split_translation]
    rw [if_neg h,
      smartSplitGo_eq_append _ _ segs 0 [] hnd (fun s _ => dictHasKey_nil s.id)]
    have h1 : ((smartSplitSlices ft ((segs.map (fun s => s.text.length)).sum) segs 0).map
        (sliceValue ft)).map Prod.fst =
        ((smartSplitSlices ft ((segs.map (fun s => s.text.length)).sum) segs 0).map
          (·.1)).map (·.id) := by
      rw [List.map_map, List.map_map]; rfl
    rw [List.nil_append, h1, smartSplitSlices_fst]

theorem translate_and_smart_split_eq_some (tr : Translator) (segs : List Segment)
    (m : TransDict) (h : translate_and_smart_split tr segs = some m) :
    ∃ ft, tr ((segs.map (·.text)).flatten) = some ft ∧ ft ≠ [] ∧
      m = smart_split_translation segs ft := by
  unfold translate_and_smart_split at h
  revert h
  cases htr : tr ((segs.map (·.text)).flatten) with
  | none => intro h; cases h
  | some ft =>
    intro h
    dsimp only at h
    split at h
    · cases h
    case isFalse hft => exact ⟨ft, rfl, hft, (Option.some.inj h).symm⟩

/-- The key-set of any returned strategy candidate, as a list in segment
order (distinct ids). -/
theorem candidate_keysList (tr : Translator) (segs : List Segment) (m : TransDict)
    (hnd : (segs.map (·.id)).Nodup)
    (hm : translate_text tr segs = some m ∨
      translate_text_with_enhanced_markers tr segs = some m ∨
      translate_and_smart_split tr segs = some m) :
    m.map Prod.fst = segs.map (·.id) := by
  rcases hm with hm | hm | hm
  · rcases translate_text_eq_some tr segs m hm with ⟨ft, -, -, rfl⟩
    rw [markerExtract_eq_insertFold]
    exact insertFold_keysList _ segs hnd
  · rcases enhanced_eq_some tr segs m hm with ⟨ft, -, -, hcase⟩
    rcases hcase with rfl | rfl
    · rw [encExtract_eq_insertFold]
      exact insertFold_keysList _ segs hnd
    · exact smart_split_keysList segs _ hnd
  · rcases translate_and_smart_split_eq_some tr segs m hm with ⟨ft, -, -, rfl⟩
    exact smart_split_keysList segs ft hnd

/-- Acceptance of an association-list candidate whose keys are exactly the
segment ids: accepted iff some segment's value differs from its text. -/
theorem strategyAccept_iff_assoc (segs : List Segment) (m : TransDict)
    (hne : segs ≠ []) (hkeys : m.map Prod.fst = segs.map (·.id)) :
    strategyAccept segs (some m) = true ↔
      ∃ s ∈ segs, dictLookup m s.id ≠ some s.text := by
  have hmne : ¬ m = [] := by
    intro he
    rw [he] at hkeys
    cases segs with
    | nil => exact hne rfl
    | cons s rest => simp at hkeys
  have hmlen : m.length = segs.length := by
    have := congrArg List.length hkeys
    simpa using this
  have hlook : ∀ s ∈ segs, ∃ v, dictLookup m s.id = some v := by
    intro s hs
    apply dictLookup_isSome_of_hasKey
    have : s.id ∈ m.map Prod.fst := by
      rw [hkeys]
      exact List.mem_map.mpr ⟨s, hs, rfl⟩
    rcases List.mem_map.mp this with ⟨p, hp, hpk⟩
    exact ⟨p.2, by rw [← hpk]; exact hp⟩
  unfold strategyAccept
  rw [decide_eq_true_eq]
  constructor
  · rintro ⟨-, -, hscan⟩
    exact (qualityScan_false_iff m segs hlook).mp hscan
  · intro hex
    exact ⟨hmne, hmlen, (qualityScan_false_iff m segs hlook).mpr hex⟩

/-- Claim C2: for more than one segment, a candidate returned by any
strategy is accepted iff it is total over the segment ids and some value
differs from its original text; the strategies run in the fixed order
Marker-Split, Enhanced-Marker, Smart-Split with the first accepted
candidate returned and later strategies unattempted; a raising strategy
(`none` candidate) is never accepted and the ladder moves on. -/
theorem orchestrator_acceptance (tr : Translator) (segs : List Segment)
    (hwf : SegsWF segs) (hlen : 1 < segs.length) :
    (∀ m, (translate_text tr segs = some m ∨
        translate_text_with_enhanced_markers tr segs = some m ∨
        translate_and_smart_split tr segs = some m) →
      (strategyAccept segs (some m) = true ↔
        ((∀ k, dictHasKey m k ↔ k ∈ segs.map (·.id)) ∧
          ∃ s ∈ segs, dictLookup m s.id ≠ some s.text))) ∧
    (strategyAccept segs (translate_text tr segs) = true →
      translate_text_robust tr segs = translate_text tr segs) ∧
    (strategyAccept segs (translate_text tr segs) = false →
      strategyAccept segs (translate_text_with_enhanced_markers tr segs) = true →
      translate_text_robust tr segs = translate_text_with_enhanced_markers tr segs) ∧
    (strategyAccept segs (translate_text tr segs) = false →
      strategyAccept segs (translate_text_with_enhanced_markers tr segs) = false →
      strategyAccept segs (translate_and_smart_split tr segs) = true →
      translate_text_robust tr segs = translate_and_smart_split tr segs) ∧
    strategyAccept segs none = false := by
  have hnd := hwf.nodupIds
  have hne : segs ≠ [] := by
    intro he; rw [he] at hlen; simp at hlen
  have hrobust : translate_text_robust tr segs =
      (if strategyAccept segs (translate_text tr segs) then translate_text tr segs
       else if strategyAccept segs (translate_text_with_enhanced_markers tr segs) then
         translate_text_with_enhanced_markers tr segs
       else if strategyAccept segs (translate_and_smart_split tr segs) then
         translate_and_smart_split tr segs
       else some (identityMapping segs)) := by
    unfold translate_text_robust
    rw [if_neg hne, dif_neg (by omega)]
  refine ⟨?_, ?_, ?_, ?_, rfl⟩
  · intro m hm
    have hkeys := candidate_keysList tr segs m hnd hm
    rw [strategyAccept_iff_assoc segs m hne hkeys]
    constructor
    · intro hex
      refine ⟨?_, hex⟩
      intro k
      constructor
      · rintro ⟨v, hv⟩
        rw [← hkeys]
        exact List.mem_map.mpr ⟨(k, v), hv, rfl⟩
      · intro hk
        rw [← hkeys] at hk
        rcases List.mem_map.mp hk with ⟨p, hp, rfl⟩
        exact ⟨p.2, hp⟩
    · rintro ⟨-, hex⟩
      exact hex
  · intro h1
    rw [hrobust, if_pos h1]
  · intro h1 h2
    rw [hrobust, if_neg (by rw [h1]; exact Bool.false_ne_true), if_pos h2]
  · intro h1 h2 h3
    rw [hrobust, if_neg (by rw [h1]; exact Bool.false_ne_true),
      if_neg (by rw [h2]; exact Bool.false_ne_true), if_pos h3]

/-- Witness for C2 at a concrete input: a translator whose Marker-Split
candidate is accepted makes the Orchestrator return that candidate. -/
theorem orchestrator_acceptance_witness :
    translate_text_robust
        (fun _ => some ("[XF_SEGMENT_0]X[XF_SEGMENT_1]Y".toList))
        [⟨0, ['a']⟩, ⟨1, ['b']⟩] =
      translate_text (fun _ => some ("[XF_SEGMENT_0]X[XF_SEGMENT_1]Y".toList))
        [⟨0, ['a']⟩, ⟨1, ['b']⟩] :=
  (orchestrator_acceptance (fun _ => some ("[XF_SEGMENT_0]X[XF_SEGMENT_1]Y".toList))
    [⟨0, ['a']⟩, ⟨1, ['b']⟩] (by decide) (by decide)).2.1 (by decide)

/-! ### First-occurrence characterization of `strFind` -/

theorem occursAt_length_le {h n : Str} {k : Nat} (hn : n ≠ []) (hk : occursAt h n k) :
    k + n.length ≤ h.length := by
  unfold occursAt at hk
  have hlen := congrArg List.length hk
  rw [List.length_take, List.length_drop] at hlen
  rcases Nat.le_total n.length (h.length - k) with hc | hc
  · have : k ≤ h.length := by
      by_contra hgt
      have h0 : h.length - k = 0 := by omega
      rw [h0] at hc
      have : n.length = 0 := by omega
      exact hn (List.eq_nil_of_length_eq_zero this)
    omega
  · rw [min_eq_right hc] at hlen
    have : n.length ≤ h.length - k := by omega
    by_cases hk2 : k ≤ h.length
    · omega
    · have h0 : h.length - k = 0 := by omega
      rw [h0] at this
      have : n.length = 0 := by omega
      exact absurd (List.eq_nil_of_length_eq_zero this) hn

theorem find?_range_eq_some (p : Nat → Bool) (m : Nat) : ∀ k,
    (List.range m).find? p = some k ↔
      k < m ∧ p k = true ∧ ∀ j, j < k → p j = false := by
  induction m with
  | zero => intro k; simp
  | succ m ih =>
    intro k
    rw [List.range_succ, List.find?_append]
    cases hm : (List.range m).find? p with
    | some q =>
      rcases (ih q).mp hm with ⟨hq1, hq2, hq3⟩
      show some q = some k ↔ _
      constructor
      · intro he
        cases he
        exact ⟨by omega, hq2, hq3⟩
      · rintro ⟨hk1, hk2, hk3⟩
        have : k = q := by
          rcases Nat.lt_trichotomy k q with hlt | heq | hgt
          · rw [hq3 k hlt] at hk2; cases hk2
          · exact heq
          · rw [hk3 q hgt] at hq2; cases hq2
        rw [this]
    | none =>
      have hall : ∀ j, j < m → p j = false := by
        intro j hj
        have := List.find?_eq_none.mp hm j (List.mem_range.mpr hj)
        exact Bool.not_eq_true _ ▸ Bool.eq_false_iff.mpr this
      show List.find? p [m] = some k ↔ _
      by_cases hp : p m = true
      · simp only [List.find?, hp]
        constructor
        · intro he
          cases he
          exact ⟨Nat.lt_succ_self m, hp, hall⟩
        · rintro ⟨hk1, hk2, hk3⟩
          have : k = m := by
            rcases Nat.lt_trichotomy k m with hlt | heq | hgt
            · rw [hall k hlt] at hk2; cases hk2
            · exact heq
            · omega
          rw [this]
      · simp only [List.find?]
        rw [Bool.not_eq_true] at hp
        rw [hp]
        constructor
        · intro he; cases he
        · rintro ⟨hk1, hk2, hk3⟩
          have hkm : k = m := by
            rcases Nat.lt_trichotomy k m with hlt | heq | hgt
            · rw [hall k hlt] at hk2; cases hk2
            · exact heq
            · omega
          rw [hkm] at hk2
          rw [hp] at hk2
          cases hk2

theorem strFind_eq_some_iff (h n : Str) (start k : Nat) (hn : n ≠ []) :
    strFind h n start = some k ↔
      start ≤ k ∧ occursAt h n k ∧
        ∀ j, start ≤ j → j < k → ¬ occursAt h n j := by
  unfold strFind
  rw [find?_range_eq_some]
  constructor
  · rintro ⟨hk1, hk2, hk3⟩
    rw [Bool.and_eq_true, decide_eq_true_eq, decide_eq_true_eq] at hk2
    refine ⟨hk2.1, hk2.2, ?_⟩
    intro j hj1 hj2 hocc
    have := hk3 j hj2
    rw [Bool.and_eq_false_iff] at this
    rcases this with hc | hc
    · rw [decide_eq_false_iff_not] at hc; omega
    · rw [decide_eq_false_iff_not] at hc; exact hc hocc
  · rintro ⟨hk1, hk2, hk3⟩
    have hkle : k + n.length ≤ h.length := occursAt_length_le hn hk2
    refine ⟨by omega, ?_, ?_⟩
    · rw [Bool.and_eq_true, decide_eq_true_eq, decide_eq_true_eq]
      exact ⟨hk1, hk2⟩
    · intro j hj
      rw [Bool.and_eq_false_iff]
      by_cases hjs : start ≤ j
      · right
        rw [decide_eq_false_iff_not]
        exact hk3 j hjs hj
      · left
        rw [decide_eq_false_iff_not]
        omega

theorem strFind_eq_none_iff (h n : Str) (start : Nat) (hn : n ≠ []) :
    strFind h n start = none ↔ ∀ k, start ≤ k → ¬ occursAt h n k := by
  unfold strFind
  rw [List.find?_eq_none]
  constructor
  · intro hall k hk hocc
    by_cases hkr : k < h.length + 1
    · have := hall k (List.mem_range.mpr hkr)
      rw [Bool.and_eq_true, decide_eq_true_eq, decide_eq_true_eq] at this
      exact this ⟨hk, hocc⟩
    · have := occursAt_length_le hn hocc
      have hnl : 0 < n.length := List.length_pos.mpr hn
      omega
  · intro hall k hk
    rw [Bool.and_eq_true, decide_eq_true_eq, decide_eq_true_eq]
    rintro ⟨h1, h2⟩
    exact hall k h1 h2

/-! ### Marker-Split extraction spans (C9) -/

theorem markerOf_ne_nil (i : Nat) : markerOf i ≠ [] := by
  unfold markerOf
  intro h
  have h1 : "[XF_SEGMENT_".toList ≠ ([] : Str) := by decide
  exact h1 (List.append_eq_nil.mp (List.append_eq_nil.mp h).1).1

/-- Claim C9: for each segment whose marker occurs in the translated
output, the extracted translation is the stripped span from the end of the
first occurrence of its marker to the first occurrence of the next id's
marker searched from that position (or end-of-string when absent); a
segment whose marker is absent receives its original text; and the spec's
concrete round trip extracts `{0: "Hello", 1: "World"}`. -/
theorem marker_split_span_extraction (tr : Translator) (segs : List Segment) (ft : Str)
    (hne : segs ≠ []) (hnd : (segs.map (·.id)).Nodup)
    (htr : tr (markedText segs) = some ft) (hft : ft ≠ []) :
    translate_text tr segs = some (markerExtract segs ft) ∧
    (∀ s ∈ segs,
      ((∀ k, ¬ occursAt ft (markerOf s.id) k) →
        dictLookup (markerExtract segs ft) s.id = some s.text) ∧
      (∀ p, occursAt ft (markerOf s.id) p →
        (∀ j, j < p → ¬ occursAt ft (markerOf s.id) j) →
        (((∀ q, p ≤ q → ¬ occursAt ft (markerOf (s.id + 1)) q) →
          dictLookup (markerExtract segs ft) s.id =
            some (pyStrip (pySlice ft (p + (markerOf s.id).length) ft.length))) ∧
         (∀ q, occursAt ft (markerOf (s.id + 1)) q → p ≤ q →
           (∀ j, p ≤ j → j < q → ¬ occursAt ft (markerOf (s.id + 1)) j) →
           dictLookup (markerExtract segs ft) s.id =
             some (pyStrip (pySlice ft (p + (markerOf s.id).length) q)))))) ∧
    markerExtract [⟨0, ['你', '好']⟩, ⟨1, ['世', '界']⟩]
        ("[XF_SEGMENT_0]Hello[XF_SEGMENT_1]World".toList) =
      [(0, "Hello".toList), (1, "World".toList)] := by
  refine ⟨?_, ?_, by decide⟩
  · unfold translate_text
    rw [if_neg hne, htr]
    dsimp only
    rw [if_neg hft]
  · intro s hs
    have hlook : dictLookup (markerExtract segs ft) s.id = some (markerValue ft s) := by
      rw [markerExtract_eq_insertFold]
      exact insertFold_lookup (markerValue ft) segs hnd s hs
    constructor
    · intro habs
      have hfind : strFind ft (markerOf s.id) 0 = none := by
        rw [strFind_eq_none_iff ft _ 0 (markerOf_ne_nil s.id)]
        intro k _
        exact habs k
      rw [hlook]
      unfold markerValue
      rw [hfind]
    · intro p hocc hmin
      have hfind : strFind ft (markerOf s.id) 0 = some p := by
        rw [strFind_eq_some_iff ft _ 0 p (markerOf_ne_nil s.id)]
        exact ⟨Nat.zero_le p, hocc, fun j _ hj => hmin j hj⟩
      constructor
      · intro habs
        have hfind2 : strFind ft (markerOf (s.id + 1)) p = none := by
          rw [strFind_eq_none_iff ft _ p (markerOf_ne_nil (s.id + 1))]
          exact habs
        rw [hlook]
        unfold markerValue
        rw [hfind]
        dsimp only
        rw [hfind2]
        rfl
      · intro q hocc2 hpq hmin2
        have hfind2 : strFind ft (markerOf (s.id + 1)) p = some q := by
          rw [strFind_eq_some_iff ft _ p q (markerOf_ne_nil (s.id + 1))]
          exact ⟨hpq, hocc2, hmin2⟩
        rw [hlook]
        unfold markerValue
        rw [hfind]
        dsimp only
        rw [hfind2]
        rfl

/-- Witness for C9: the spec's marker round-trip example. -/
theorem marker_split_span_extraction_witness :
    translate_text (fun _ => some ("[XF_SEGMENT_0]Hello[XF_SEGMENT_1]World".toList))
        [⟨0, ['你', '好']⟩, ⟨1, ['世', '界']⟩] =
      some (markerExtract [⟨0, ['你', '好']⟩, ⟨1, ['世', '界']⟩]
        ("[XF_SEGMENT_0]Hello[XF_SEGMENT_1]World".toList)) :=
  (marker_split_span_extraction
    (fun _ => some ("[XF_SEGMENT_0]Hello[XF_SEGMENT_1]World".toList))
    [⟨0, ['你', '好']⟩, ⟨1, ['世', '界']⟩]
    ("[XF_SEGMENT_0]Hello[XF_SEGMENT_1]World".toList)
    (by simp) (by decide) rfl (by decide)).1

/-! ### Decimal-digit facts for marker tokens -/

theorem natToStr_digits (n : Nat) : ∀ c ∈ natToStr n, c.isDigit = true := by
  induction n using Nat.strong_induction_on with
  | _ n ih =>
    rw [natToStr_unfold]
    by_cases hn : n < 10
    · rw [if_pos hn]
      intro c hc
      rw [List.mem_singleton] at hc
      subst hc
      interval_cases n <;> decide
    · rw [if_neg hn]
      intro c hc
      rcases List.mem_append.mp hc with hc | hc
      · exact ih (n / 10) (Nat.div_lt_self (by omega) (by omega)) c hc
      · rw [List.mem_singleton] at hc
        subst hc
        have hm : n % 10 < 10 := Nat.mod_lt _ (by omega)
        generalize n % 10 = m at hm ⊢
        interval_cases m <;> decide

/-- The numeric value of a digit string (used only to invert `natToStr`). -/
def digitVal (c : Char) : Nat := c.toNat - 48

/-- Read a decimal digit string back as a number. -/
def strVal (s : Str) : Nat := s.foldl (fun a c => 10 * a + digitVal c) 0

theorem strVal_append_digit (a : Str) (c : Char) :
    strVal (a ++ [c]) = 10 * strVal a + digitVal c := by
  unfold strVal
  rw [List.foldl_append]
  rfl

theorem strVal_natToStr (n : Nat) : strVal (natToStr n) = n := by
  induction n using Nat.strong_induction_on with
  | _ n ih =>
    rw [natToStr_unfold]
    by_cases hn : n < 10
    · rw [if_pos hn]
      interval_cases n <;> decide
    · rw [if_neg hn]
      rw [strVal_append_digit, ih (n / 10) (Nat.div_lt_self (by omega) (by omega))]
      have hm : n % 10 < 10 := Nat.mod_lt _ (by omega)
      have hd : digitVal (Char.ofNat (48 + n % 10)) = n % 10 := by
        generalize n % 10 = m at hm ⊢
        interval_cases m <;> decide
      rw [hd]
      omega

theorem natToStr_injective (a b : Nat) (h : natToStr a = natToStr b) : a = b := by
  have := congrArg strVal h
  rwa [strVal_natToStr, strVal_natToStr] at this

theorem natToStr_ne_nil (n : Nat) : natToStr n ≠ [] := by
  rw [natToStr_unfold]
  by_cases hn : n < 10
  · rw [if_pos hn]; simp
  · rw [if_neg hn]; simp

/-- Cancellation of a digit run terminated by a fixed non-digit character:
if `d1 ++ [c0]` is an initial segment of `d2 ++ c0 :: t` then `d1 = d2`. -/
theorem digit_seq_cancel (c0 : Char) (hc0 : c0.isDigit = false) :
    ∀ (d1 : Str), ∀ (d2 t : Str), (∀ c ∈ d1, c.isDigit = true) →
      (∀ c ∈ d2, c.isDigit = true) →
      (d2 ++ c0 :: t).take (d1.length + 1) = d1 ++ [c0] → d1 = d2 := by
  intro d1
  induction d1 with
  | nil =>
    intro d2 t h1 h2 heq
    cases d2 with
    | nil => rfl
    | cons c2 d2 =>
      simp only [List.length_nil, List.cons_append, List.take_succ_cons,
        List.take_zero, List.nil_append] at heq
      have hc2 : c2 = c0 := by
        have := congrArg (fun l => l.head?) heq
        simpa using this
      rw [hc2] at h2
      rw [h2 c0 (List.mem_cons_self c0 d2)] at hc0
      cases hc0
  | cons c1 d1 ih =>
    intro d2 t h1 h2 heq
    cases d2 with
    | nil =>
      simp only [List.nil_append, List.length_cons, List.take_succ_cons,
        List.cons_append] at heq
      have hc1 : c0 = c1 := by
        have := congrArg (fun l => l.head?) heq
        simpa using this
      rw [← hc1] at h1
      rw [h1 c0 (List.mem_cons_self c0 d1)] at hc0
      cases hc0
    | cons c2 d2 =>
      simp only [List.cons_append, List.length_cons, List.take_succ_cons] at heq
      have hc : c2 = c1 := by
        have := congrArg (fun l => l.head?) heq
        simpa using this
      have htail : (d2 ++ c0 :: t).take (d1.length + 1) = d1 ++ [c0] := by
        have := congrArg List.tail heq
        simpa using this
      rw [hc, ih d2 t (fun c hc2 => h1 c (List.mem_cons_of_mem c1 hc2))
        (fun c hc2 => h2 c (List.mem_cons_of_mem c2 hc2)) htail]

/-! ### Occurrences of markers in the marked composite text -/

/-- One segment's contribution to the Marker-Split composite text. -/
def mBlock (s : Segment) : Str := markerOf s.id ++ s.text

/-- Start position of the `j`-th block in the composite text. -/
def mPos : List Segment → Nat → Nat
  | _, 0 => 0
  | [], _ + 1 => 0
  | s :: rest, j + 1 => (mBlock s).length + mPos rest j

theorem mPos_zero (segs : List Segment) : mPos segs 0 = 0 := by
  cases segs <;> rfl

theorem foldl_append_flatten {α : Type} (f : α → Str) (l : List α) :
    ∀ acc : Str, l.foldl (fun acc x => acc ++ f x) acc = acc ++ (l.map f).flatten := by
  induction l with
  | nil => intro acc; simp
  | cons x l ih =>
    intro acc
    rw [List.foldl_cons, ih, List.map_cons, List.flatten_cons, List.append_assoc]

theorem markedText_eq_flatten (segs : List Segment) :
    markedText segs = (segs.map mBlock).flatten := by
  unfold markedText
  rw [foldlCongrFun (fun acc s => acc ++ markerOf s.id ++ s.text)
    (fun acc s => acc ++ mBlock s) segs []
    (fun d s => by
      show d ++ markerOf s.id ++ s.text = d ++ mBlock s
      unfold mBlock
      rw [List.append_assoc])]
  rw [foldl_append_flatten]
  rfl

theorem markerOf_eq_cons (i : Nat) :
    markerOf i = '[' :: ("XF_SEGMENT_".toList ++ natToStr i ++ [']']) := by
  unfold markerOf
  have h : "[XF_SEGMENT_".toList = '[' :: "XF_SEGMENT_".toList := by decide
  rw [h]
  simp

theorem occursAt_head_char (h : Str) (c : Char) (m : Str) (k : Nat)
    (ho : occursAt h (c :: m) k) : h[k]? = some c := by
  unfold occursAt at ho
  cases hd : h.drop k with
  | nil => rw [hd] at ho; simp at ho
  | cons a l =>
    rw [hd] at ho
    simp only [List.length_cons, List.take_succ_cons] at ho
    have ha : a = c := (List.cons.injEq _ _ _ _).mp ho |>.1
    have h0 : (h.drop k)[0]? = h[k]? := by
      rw [List.getElem?_drop, Nat.add_zero]
    rw [← h0, hd, ha]
    simp

theorem occursAt_shift (a b n : Str) (k : Nat) (h : occursAt b n k) :
    occursAt (a ++ b) n (a.length + k) := by
  unfold occursAt at h ⊢
  rw [List.drop_append]
  exact h

theorem occursAt_drop (h n : Str) (k : Nat) :
    occursAt h n k ↔ occursAt (h.drop k) n 0 := by
  unfold occursAt
  rw [List.drop_zero]

/-- The first character of `markerOf i` never recurs inside it, and the
texts are assumed clean of it, so `'['` appears in the composite text only
at block starts. -/
theorem mText_bracket_positions (segs : List Segment)
    (hcln : ∀ s ∈ segs, '[' ∉ s.text) :
    ∀ k, ((segs.map mBlock).flatten)[k]? = some '[' →
      ∃ j, j < segs.length ∧ k = mPos segs j := by
  induction segs with
  | nil => intro k hk; simp at hk
  | cons s rest ih =>
    intro k hk
    rw [List.map_cons, List.flatten_cons, List.getElem?_append] at hk
    split at hk
    case isTrue hlt =>
      rw [mBlock, List.getElem?_append] at hk
      split at hk
      case isTrue hlt2 =>
        by_cases hk0 : k = 0
        · exact ⟨0, by simp, by rw [hk0, mPos_zero]⟩
        · exfalso
          rw [markerOf_eq_cons] at hk
          rcases Nat.exists_eq_succ_of_ne_zero hk0 with ⟨k2, rfl⟩
          simp only [List.getElem?_cons_succ] at hk
          have hmem : '[' ∈ "XF_SEGMENT_".toList ++ natToStr s.id ++ [']'] :=
            List.getElem?_mem hk
          rcases List.mem_append.mp hmem with hmem2 | hmem2
          · rcases List.mem_append.mp hmem2 with hmem3 | hmem3
            · have hq : ('[' : Char) ∉ "XF_SEGMENT_".toList := by decide
              exact hq hmem3
            · have hq := natToStr_digits s.id '[' hmem3
              have h2 : ('[' : Char).isDigit = false := by decide
              rw [h2] at hq
              cases hq
          · have hq : ('[' : Char) ≠ ']' := by decide
            rw [List.mem_singleton] at hmem2
            exact hq hmem2
      case isFalse hge =>
        exfalso
        have hmem : '[' ∈ s.text := List.getElem?_mem hk
        exact hcln s (List.mem_cons_self s rest) hmem
    case isFalse hge =>
      rcases ih (fun t ht => hcln t (List.mem_cons_of_mem s ht)) _ hk with ⟨j, hj, hkj⟩
      refine ⟨j + 1, by simp only [List.length_cons]; omega, ?_⟩
      show k = (mBlock s).length + mPos rest j
      omega

/-- Dropping to a block start leaves the flattened suffix of blocks. -/
theorem drop_mPos (segs : List Segment) :
    ∀ j, j ≤ segs.length →
      ((segs.map mBlock).flatten).drop (mPos segs j) =
        ((segs.drop j).map mBlock).flatten := by
  induction segs with
  | nil => intro j hj; cases j <;> rfl
  | cons s rest ih =>
    intro j hj
    cases j with
    | zero => rw [mPos_zero]; simp
    | succ j =>
      show ((mBlock s :: rest.map mBlock).flatten).drop ((mBlock s).length + mPos rest j) = _
      rw [List.flatten_cons, List.drop_append, List.drop_succ_cons]
      simp only [List.length_cons] at hj
      exact ih j (by omega)

theorem mPos_succ (segs : List Segment) :
    ∀ j (hj : j < segs.length),
      mPos segs (j + 1) = mPos segs j + (mBlock (segs.get ⟨j, hj⟩)).length := by
  induction segs with
  | nil => intro j hj; simp at hj
  | cons s rest ih =>
    intro j hj
    cases j with
    | zero =>
      show (mBlock s).length + mPos rest 0 = mPos (s :: rest) 0 + (mBlock s).length
      rw [mPos_zero, mPos_zero]
      omega
    | succ j =>
      show (mBlock s).length + mPos rest (j + 1) =
        (mBlock s).length + mPos rest j + (mBlock ((s :: rest).get ⟨j + 1, hj⟩)).length
      simp only [List.length_cons] at hj
      rw [ih j (by omega)]
      simp only [List.get_cons_succ]
      omega

theorem occursAt_here (n v : Str) : occursAt (n ++ v) n 0 := by
  unfold occursAt
  rw [List.drop_zero, List.take_append_of_le_length (Nat.le_refl _), List.take_length]

/-- A marker occurring at the very start of another marker's block has the
same id. -/
theorem markerOf_occursAt_cancel (i j : Nat) (t : Str)
    (h : occursAt (markerOf j ++ t) (markerOf i) 0) : i = j := by
  unfold occursAt at h
  rw [List.drop_zero] at h
  have hshape : markerOf i = "[XF_SEGMENT_".toList ++ (natToStr i ++ [']']) := by
    unfold markerOf
    simp
  have hshapej : markerOf j ++ t =
      "[XF_SEGMENT_".toList ++ (natToStr j ++ ']' :: t) := by
    unfold markerOf
    simp
  rw [hshape, hshapej] at h
  rw [List.length_append, List.length_append, List.length_singleton] at h
  rw [List.take_append] at h
  have hcancel := List.append_cancel_left h
  have hdig := digit_seq_cancel ']' (by decide) (natToStr i) (natToStr j) t
    (natToStr_digits i) (natToStr_digits j) hcancel
  exact natToStr_injective i j hdig

/-- Occurrence characterization: in the Marker-Split composite text of
segments with consecutive ids starting at `base`, the marker of id `i`
occurs exactly at the start of block `i - base`. -/
theorem mText_occursAt_iff (segs : List Segment) (base : Nat)
    (hid : segs.map (·.id) = List.range' base segs.length)
    (hcln : ∀ s ∈ segs, '[' ∉ s.text) (i k : Nat) :
    occursAt ((segs.map mBlock).flatten) (markerOf i) k ↔
      ∃ j, j < segs.length ∧ i = base + j ∧ k = mPos segs j := by
  have hidj : ∀ j (hj : j < segs.length), (segs.get ⟨j, hj⟩).id = base + j := by
    intro j hj
    have h1 : (segs.map (·.id))[j]? = some (segs.get ⟨j, hj⟩).id := by
      rw [List.getElem?_eq_getElem (by simpa using hj), List.getElem_map]
      rfl
    have h2 : (List.range' base segs.length)[j]? = some (base + j) := by
      rw [List.getElem?_eq_getElem (by simpa using hj), List.getElem_range']
      simp
    rw [hid, h2] at h1
    exact (Option.some.inj h1).symm
  constructor
  · intro ho
    have hhead : ((segs.map mBlock).flatten)[k]? = some '[' := by
      rw [markerOf_eq_cons] at ho
      exact occursAt_head_char _ _ _ _ ho
    rcases mText_bracket_positions segs hcln k hhead with ⟨j, hj, rfl⟩
    refine ⟨j, hj, ?_, rfl⟩
    have hdrop := (occursAt_drop _ _ _).mp ho
    rw [drop_mPos segs j (Nat.le_of_lt hj)] at hdrop
    rw [List.drop_eq_getElem_cons hj] at hdrop
    rw [List.map_cons, List.flatten_cons] at hdrop
    have hb : mBlock (segs.get ⟨j, hj⟩) ++ ((segs.drop (j + 1)).map mBlock).flatten =
        markerOf (segs.get ⟨j, hj⟩).id ++
          ((segs.get ⟨j, hj⟩).text ++ ((segs.drop (j + 1)).map mBlock).flatten) := by
      rw [mBlock, List.append_assoc]
    rw [show (segs[j] : Segment) = segs.get ⟨j, hj⟩ from rfl] at hdrop
    rw [hb] at hdrop
    have := markerOf_occursAt_cancel i (segs.get ⟨j, hj⟩).id _ hdrop
    rw [this, hidj j hj]
  · rintro ⟨j, hj, rfl, rfl⟩
    rw [occursAt_drop, drop_mPos segs j (Nat.le_of_lt hj),
      List.drop_eq_getElem_cons hj, List.map_cons, List.flatten_cons]
    have hb : mBlock (segs[j] : Segment) ++ ((segs.drop (j + 1)).map mBlock).flatten =
        markerOf (segs[j] : Segment).id ++
          ((segs[j] : Segment).text ++ ((segs.drop (j + 1)).map mBlock).flatten) := by
      rw [mBlock, List.append_assoc]
    rw [hb]
    have hidj2 : (segs[j] : Segment).id = base + j := hidj j hj
    rw [hidj2]
    exact occursAt_here _ _

theorem mText_strFind_some (segs : List Segment) (base : Nat)
    (hid : segs.map (·.id) = List.range' base segs.length)
    (hcln : ∀ s ∈ segs, '[' ∉ s.text) (j : Nat) (hj : j < segs.length)
    (start : Nat) (hstart : start ≤ mPos segs j) :
    strFind ((segs.map mBlock).flatten) (markerOf (base + j)) start =
      some (mPos segs j) := by
  rw [strFind_eq_some_iff _ _ _ _ (markerOf_ne_nil _)]
  refine ⟨hstart, ?_, ?_⟩
  · exact (mText_occursAt_iff segs base hid hcln _ _).mpr ⟨j, hj, rfl, rfl⟩
  · intro k hk1 hk2 hocc
    rcases (mText_occursAt_iff segs base hid hcln _ _).mp hocc with ⟨j2, hj2, hbe, rfl⟩
    have : j2 = j := by omega
    rw [this] at hk2
    omega

theorem mText_strFind_none (segs : List Segment) (base : Nat)
    (hid : segs.map (·.id) = List.range' base segs.length)
    (hcln : ∀ s ∈ segs, '[' ∉ s.text) (i : Nat)
    (hout : ∀ j, j < segs.length → i ≠ base + j) (start : Nat) :
    strFind ((segs.map mBlock).flatten) (markerOf i) start = none := by
  rw [strFind_eq_none_iff _ _ _ (markerOf_ne_nil _)]
  intro k _ hocc
  rcases (mText_occursAt_iff segs base hid hcln _ _).mp hocc with ⟨j, hj, hbe, -⟩
  exact hout j hj hbe

theorem drop_length_append (n v : Str) : (n ++ v).drop n.length = v := by
  have h := @List.drop_append _ n v 0
  rw [Nat.add_zero, List.drop_zero] at h
  exact h

theorem mText_drop_block (segs : List Segment) (j : Nat) (hj : j < segs.length) :
    ((segs.map mBlock).flatten).drop
        (mPos segs j + (markerOf (segs.get ⟨j, hj⟩).id).length) =
      (segs.get ⟨j, hj⟩).text ++ ((segs.drop (j + 1)).map mBlock).flatten := by
  rw [← List.drop_drop, drop_mPos segs j (Nat.le_of_lt hj),
    List.drop_eq_getElem_cons hj, List.map_cons, List.flatten_cons]
  have hb : mBlock (segs[j] : Segment) ++ ((segs.drop (j + 1)).map mBlock).flatten =
      markerOf (segs[j] : Segment).id ++
        ((segs[j] : Segment).text ++ ((segs.drop (j + 1)).map mBlock).flatten) := by
    rw [mBlock, List.append_assoc]
  rw [hb]
  rw [show (segs[j] : Segment) = segs.get ⟨j, hj⟩ from rfl]
  exact drop_length_append _ _

theorem mText_slice_mid (segs : List Segment) (j : Nat) (hj1 : j + 1 < segs.length) :
    pySlice ((segs.map mBlock).flatten)
        (mPos segs j + (markerOf (segs.get ⟨j, by omega⟩).id).length)
        (mPos segs (j + 1)) =
      (segs.get ⟨j, by omega⟩).text := by
  have hj : j < segs.length := by omega
  unfold pySlice
  rw [mText_drop_block segs j hj]
  have hsucc := mPos_succ segs j hj
  have hlen : mPos segs (j + 1) -
      (mPos segs j + (markerOf (segs.get ⟨j, hj⟩).id).length) =
      (segs.get ⟨j, hj⟩).text.length := by
    rw [hsucc, mBlock, List.length_append]
    omega
  rw [hlen, List.take_append_of_le_length (Nat.le_refl _), List.take_length]

theorem mText_slice_last (segs : List Segment) (j : Nat) (hj : j < segs.length)
    (hlast : j + 1 = segs.length) :
    pySlice ((segs.map mBlock).flatten)
        (mPos segs j + (markerOf (segs.get ⟨j, hj⟩).id).length)
        ((segs.map mBlock).flatten).length =
      (segs.get ⟨j, hj⟩).text := by
  rw [pySlice_to_length, mText_drop_block segs j hj]
  have hdrop : segs.drop (j + 1) = [] := by
    rw [List.drop_eq_nil_iff]
    omega
  rw [hdrop]
  simp

theorem segsId_at (segs : List Segment) (base : Nat)
    (hid : segs.map (·.id) = List.range' base segs.length)
    (j : Nat) (hj : j < segs.length) : (segs.get ⟨j, hj⟩).id = base + j := by
  have h1 : (segs.map (·.id))[j]? = some (segs.get ⟨j, hj⟩).id := by
    rw [List.getElem?_eq_getElem (by simpa using hj), List.getElem_map]
    rfl
  have h2 : (List.range' base segs.length)[j]? = some (base + j) := by
    rw [List.getElem?_eq_getElem (by simpa using hj), List.getElem_range']
    simp
  rw [hid, h2] at h1
  exact (Option.some.inj h1).symm

/-- On an echoed Marker-Split composite text, every segment's extracted
value is its own original text. -/
theorem markerValue_echo (segs : List Segment) (base : Nat)
    (hid : segs.map (·.id) = List.range' base segs.length)
    (hcln : ∀ s ∈ segs, '[' ∉ s.text)
    (htrim : ∀ s ∈ segs, pyStrip s.text = s.text)
    (j : Nat) (hj : j < segs.length) :
    markerValue ((segs.map mBlock).flatten) (segs.get ⟨j, hj⟩) =
      (segs.get ⟨j, hj⟩).text := by
  have hsid : (segs.get ⟨j, hj⟩).id = base + j := segsId_at segs base hid j hj
  have hfind1 : strFind ((segs.map mBlock).flatten)
      (markerOf (segs.get ⟨j, hj⟩).id) 0 = some (mPos segs j) := by
    rw [hsid]
    exact mText_strFind_some segs base hid hcln j hj 0 (Nat.zero_le _)
  unfold markerValue
  rw [hfind1]
  dsimp only
  by_cases hj1 : j + 1 < segs.length
  · have hfind2 : strFind ((segs.map mBlock).flatten)
        (markerOf ((segs.get ⟨j, hj⟩).id + 1)) (mPos segs j) =
        some (mPos segs (j + 1)) := by
      rw [hsid, show base + j + 1 = base + (j + 1) from rfl]
      apply mText_strFind_some segs base hid hcln (j + 1) hj1
      rw [mPos_succ segs j hj]
      omega
    rw [hfind2]
    show pyStrip (pySlice _ (mPos segs j + (markerOf (segs.get ⟨j, hj⟩).id).length)
      (mPos segs (j + 1))) = _
    rw [mText_slice_mid segs j hj1]
    exact htrim _ (List.get_mem segs j hj)
  · have hlast : j + 1 = segs.length := by omega
    have hfind2 : strFind ((segs.map mBlock).flatten)
        (markerOf ((segs.get ⟨j, hj⟩).id + 1)) (mPos segs j) = none := by
      rw [hsid, show base + j + 1 = base + (j + 1) from rfl]
      apply mText_strFind_none segs base hid hcln
      intro j2 hj2
      omega
    rw [hfind2]
    show pyStrip (pySlice _ (mPos segs j + (markerOf (segs.get ⟨j, hj⟩).id).length)
      ((segs.map mBlock).flatten).length) = _
    rw [mText_slice_last segs j hj hlast]
    exact htrim _ (List.get_mem segs j hj)

/-- Echoing the Marker-Split composite text reproduces the original texts
exactly. -/
theorem markerExtract_echo (segs : List Segment) (base : Nat)
    (hid : segs.map (·.id) = List.range' base segs.length)
    (hcln : ∀ s ∈ segs, '[' ∉ s.text)
    (htrim : ∀ s ∈ segs, pyStrip s.text = s.text) :
    markerExtract segs (markedText segs) =
      segs.map (fun s => (s.id, s.text)) := by
  have hnd : (segs.map (·.id)).Nodup := by
    rw [hid]
    exact List.nodup_range' base segs.length 1 (by omega)
  rw [markedText_eq_flatten, markerExtract_eq_insertFold,
    insertFold_eq_append _ segs [] hnd (fun s _ => dictHasKey_nil s.id),
    List.nil_append]
  apply List.map_congr_left
  intro s hs
  rcases List.mem_iff_get.mp hs with ⟨⟨j, hj⟩, rfl⟩
  rw [markerValue_echo segs base hid hcln htrim j hj]

/-! ### Occurrences of enhanced markers in the enhanced composite text -/

/-- One segment's contribution to the Enhanced-Marker composite text. -/
def eBlock (s : Segment) : Str :=
  encMarkerOf s.id ++ s.text ++ encMarkerOf s.id

/-- Start position of the `j`-th enhanced block. -/
def ePos : List Segment → Nat → Nat
  | _, 0 => 0
  | [], _ + 1 => 0
  | s :: rest, j + 1 => (eBlock s).length + ePos rest j

theorem ePos_zero (segs : List Segment) : ePos segs 0 = 0 := by
  cases segs <;> rfl

theorem encMarkedText_eq_flatten (segs : List Segment) :
    encMarkedText segs = (segs.map eBlock).flatten := by
  unfold encMarkedText
  rw [foldlCongrFun
    (fun acc s => acc ++ encMarkerOf s.id ++ s.text ++ encMarkerOf s.id)
    (fun acc s => acc ++ eBlock s) segs []
    (fun d s => by
      show d ++ encMarkerOf s.id ++ s.text ++ encMarkerOf s.id = d ++ eBlock s
      unfold eBlock
      rw [List.append_assoc, List.append_assoc, List.append_assoc])]
  rw [foldl_append_flatten]
  rfl

theorem encMarkerOf_ne_nil (i : Nat) : encMarkerOf i ≠ [] := by
  unfold encMarkerOf
  simp

theorem encMarkerOf_eq_cons (i : Nat) :
    encMarkerOf i = '【' :: (natToStr i ++ ['】']) := rfl

/-- An enhanced marker occurring at the start of another enhanced marker
followed by anything has the same id. -/
theorem encMarkerOf_occursAt_cancel (i j : Nat) (t : Str)
    (h : occursAt (encMarkerOf j ++ t) (encMarkerOf i) 0) : i = j := by
  unfold occursAt at h
  rw [List.drop_zero] at h
  rw [encMarkerOf_eq_cons, encMarkerOf_eq_cons] at h
  rw [List.cons_append] at h
  rw [List.length_cons, List.length_append, List.length_singleton] at h
  rw [List.take_succ_cons] at h
  have htail := congrArg List.tail h
  simp only [List.tail_cons] at htail
  have hform : natToStr j ++ ['】'] ++ t = natToStr j ++ '】' :: t := by
    rw [List.append_assoc, List.singleton_append]
  rw [hform] at htail
  have hdig := digit_seq_cancel '】' (by decide) (natToStr i) (natToStr j) t
    (natToStr_digits i) (natToStr_digits j) htail
  exact natToStr_injective i j hdig

theorem eBlock_assoc (s : Segment) (u : Str) :
    eBlock s ++ u = encMarkerOf s.id ++ (s.text ++ (encMarkerOf s.id ++ u)) := by
  unfold eBlock
  rw [List.append_assoc, List.append_assoc]

/-- `'【'` appears in the enhanced composite text only at the opening or
closing marker position of some block. -/
theorem eText_bracket_positions (segs : List Segment)
    (hcln : ∀ s ∈ segs, '【' ∉ s.text) :
    ∀ k, ((segs.map eBlock).flatten)[k]? = some '【' →
      ∃ j, ∃ hj : j < segs.length,
        k = ePos segs j ∨
        k = ePos segs j + (encMarkerOf (segs.get ⟨j, hj⟩).id).length +
          (segs.get ⟨j, hj⟩).text.length := by
  induction segs with
  | nil => intro k hk; simp at hk
  | cons s rest ih =>
    intro k hk
    rw [List.map_cons, List.flatten_cons, List.getElem?_append] at hk
    split at hk
    case isTrue hlt =>
      refine ⟨0, by simp, ?_⟩
      rw [ePos_zero]
      have henc : ∀ m, (encMarkerOf s.id)[m]? = some '【' → m = 0 := by
        intro m hm
        by_cases hm0 : m = 0
        · exact hm0
        · exfalso
          rw [encMarkerOf_eq_cons] at hm
          rcases Nat.exists_eq_succ_of_ne_zero hm0 with ⟨m2, rfl⟩
          simp only [List.getElem?_cons_succ] at hm
          have hmem : '【' ∈ natToStr s.id ++ ['】'] := List.getElem?_mem hm
          rcases List.mem_append.mp hmem with hmem2 | hmem2
          · have hq := natToStr_digits s.id '【' hmem2
            have h2 : ('【' : Char).isDigit = false := by decide
            rw [h2] at hq
            cases hq
          · have hq : ('【' : Char) ≠ '】' := by decide
            rw [List.mem_singleton] at hmem2
            exact hq hmem2
      rw [eBlock, List.getElem?_append] at hk
      split at hk
      case isTrue hlt2 =>
        rw [List.getElem?_append] at hk
        split at hk
        case isTrue hlt3 => exact Or.inl (henc k hk)
        case isFalse hge3 =>
          exfalso
          have hmem : '【' ∈ s.text := List.getElem?_mem hk
          exact hcln s (List.mem_cons_self s rest) hmem
      case isFalse hge2 =>
        right
        have h0 := henc _ hk
        rw [List.length_append] at hge2 h0
        show k = 0 + (encMarkerOf s.id).length + s.text.length
        omega
    case isFalse hge =>
      rcases ih (fun t ht => hcln t (List.mem_cons_of_mem s ht)) _ hk
        with ⟨j, hj, hcase⟩
      refine ⟨j + 1, by simp only [List.length_cons]; omega, ?_⟩
      have hpos : ePos (s :: rest) (j + 1) = (eBlock s).length + ePos rest j := rfl
      simp only [List.get_cons_succ]
      rcases hcase with hkj | hkj
      · left
        rw [hpos]
        omega
      · right
        rw [hpos]
        omega

theorem drop_ePos (segs : List Segment) :
    ∀ j, j ≤ segs.length →
      ((segs.map eBlock).flatten).drop (ePos segs j) =
        ((segs.drop j).map eBlock).flatten := by
  induction segs with
  | nil => intro j hj; cases j <;> rfl
  | cons s rest ih =>
    intro j hj
    cases j with
    | zero => rw [ePos_zero]; simp
    | succ j =>
      show ((eBlock s :: rest.map eBlock).flatten).drop ((eBlock s).length + ePos rest j) = _
      rw [List.flatten_cons, List.drop_append, List.drop_succ_cons]
      simp only [List.length_cons] at hj
      exact ih j (by omega)

theorem ePos_succ (segs : List Segment) :
    ∀ j (hj : j < segs.length),
      ePos segs (j + 1) = ePos segs j + (eBlock (segs.get ⟨j, hj⟩)).length := by
  induction segs with
  | nil => intro j hj; simp at hj
  | cons s rest ih =>
    intro j hj
    cases j with
    | zero =>
      show (eBlock s).length + ePos rest 0 = ePos (s :: rest) 0 + (eBlock s).length
      rw [ePos_zero, ePos_zero]
      omega
    | succ j =>
      show (eBlock s).length + ePos rest (j + 1) =
        (eBlock s).length + ePos rest j + (eBlock ((s :: rest).get ⟨j + 1, hj⟩)).length
      simp only [List.length_cons] at hj
      rw [ih j (by omega)]
      simp only [List.get_cons_succ]
      omega

/-- Occurrence characterization for enhanced markers: the marker of id `i`
occurs exactly at the opening and the closing position of block `i - base`. -/
theorem eText_occursAt_iff (segs : List Segment) (base : Nat)
    (hid : segs.map (·.id) = List.range' base segs.length)
    (hcln : ∀ s ∈ segs, '【' ∉ s.text) (i k : Nat) :
    occursAt ((segs.map eBlock).flatten) (encMarkerOf i) k ↔
      ∃ j, ∃ hj : j < segs.length, i = base + j ∧
        (k = ePos segs j ∨
          k = ePos segs j + (encMarkerOf (base + j)).length +
            (segs.get ⟨j, hj⟩).text.length) := by
  constructor
  · intro ho
    have hhead : ((segs.map eBlock).flatten)[k]? = some '【' := by
      rw [encMarkerOf_eq_cons] at ho
      exact occursAt_head_char _ _ _ _ ho
    rcases eText_bracket_positions segs hcln k hhead with ⟨j, hj, hcase⟩
    have hsid : (segs.get ⟨j, hj⟩).id = base + j := segsId_at segs base hid j hj
    rcases hcase with rfl | rfl
    · refine ⟨j, hj, ?_, Or.inl rfl⟩
      have hdrop := (occursAt_drop _ _ _).mp ho
      rw [drop_ePos segs j (Nat.le_of_lt hj)] at hdrop
      rw [List.drop_eq_getElem_cons hj, List.map_cons, List.flatten_cons] at hdrop
      rw [show (segs[j] : Segment) = segs.get ⟨j, hj⟩ from rfl] at hdrop
      rw [eBlock_assoc] at hdrop
      have hcan := encMarkerOf_occursAt_cancel i (segs.get ⟨j, hj⟩).id _ hdrop
      rw [hcan, hsid]
    · refine ⟨j, hj, ?_, Or.inr (by rw [hsid])⟩
      have hdrop := (occursAt_drop _ _ _).mp ho
      rw [← List.drop_drop, ← List.drop_drop] at hdrop
      rw [drop_ePos segs j (Nat.le_of_lt hj), List.drop_eq_getElem_cons hj,
        List.map_cons, List.flatten_cons,
        show (segs[j] : Segment) = segs.get ⟨j, hj⟩ from rfl, eBlock_assoc,
        drop_length_append, drop_length_append] at hdrop
      have hcan := encMarkerOf_occursAt_cancel i (segs.get ⟨j, hj⟩).id _ hdrop
      rw [hcan, hsid]
  · rintro ⟨j, hj, rfl, hcase⟩
    have hsid : (segs.get ⟨j, hj⟩).id = base + j := segsId_at segs base hid j hj
    rcases hcase with rfl | rfl
    · rw [occursAt_drop, drop_ePos segs j (Nat.le_of_lt hj),
        List.drop_eq_getElem_cons hj, List.map_cons, List.flatten_cons]
      rw [show (segs[j] : Segment) = segs.get ⟨j, hj⟩ from rfl]
      rw [eBlock_assoc, ← hsid]
      exact occursAt_here _ _
    · rw [← hsid]
      rw [occursAt_drop, ← List.drop_drop, ← List.drop_drop,
        drop_ePos segs j (Nat.le_of_lt hj),
        List.drop_eq_getElem_cons hj, List.map_cons, List.flatten_cons,
        show (segs[j] : Segment) = segs.get ⟨j, hj⟩ from rfl, eBlock_assoc,
        drop_length_append, drop_length_append]
      exact occursAt_here _ _

theorem eText_strFind_open (segs : List Segment) (base : Nat)
    (hid : segs.map (·.id) = List.range' base segs.length)
    (hcln : ∀ s ∈ segs, '【' ∉ s.text) (j : Nat) (hj : j < segs.length) :
    strFind ((segs.map eBlock).flatten) (encMarkerOf (base + j)) 0 =
      some (ePos segs j) := by
  rw [strFind_eq_some_iff _ _ _ _ (encMarkerOf_ne_nil _)]
  refine ⟨Nat.zero_le _, ?_, ?_⟩
  · exact (eText_occursAt_iff segs base hid hcln _ _).mpr ⟨j, hj, rfl, Or.inl rfl⟩
  · intro k hk1 hk2 hocc
    rcases (eText_occursAt_iff segs base hid hcln _ _).mp hocc
      with ⟨j2, hj2, hbe, hcase⟩
    have hjj : j2 = j := by omega
    subst hjj
    rcases hcase with rfl | rfl
    · omega
    · omega

theorem eText_strFind_close (segs : List Segment) (base : Nat)
    (hid : segs.map (·.id) = List.range' base segs.length)
    (hcln : ∀ s ∈ segs, '【' ∉ s.text) (j : Nat) (hj : j < segs.length) :
    strFind ((segs.map eBlock).flatten) (encMarkerOf (base + j))
        (ePos segs j + (encMarkerOf (base + j)).length) =
      some (ePos segs j + (encMarkerOf (base + j)).length +
        (segs.get ⟨j, hj⟩).text.length) := by
  rw [strFind_eq_some_iff _ _ _ _ (encMarkerOf_ne_nil _)]
  refine ⟨by omega, ?_, ?_⟩
  · exact (eText_occursAt_iff segs base hid hcln _ _).mpr ⟨j, hj, rfl, Or.inr rfl⟩
  · intro k hk1 hk2 hocc
    have hpos : 0 < (encMarkerOf (base + j)).length := by
      have hc := encMarkerOf_ne_nil (base + j)
      cases hh : encMarkerOf (base + j) with
      | nil => exact absurd hh hc
      | cons c l => simp
    rcases (eText_occursAt_iff segs base hid hcln _ _).mp hocc
      with ⟨j2, hj2, hbe, hcase⟩
    have hjj : j2 = j := by omega
    subst hjj
    rcases hcase with rfl | rfl
    · omega
    · omega

theorem eText_slice (segs : List Segment) (j : Nat) (hj : j < segs.length)
    (base : Nat) (hid : segs.map (·.id) = List.range' base segs.length) :
    pySlice ((segs.map eBlock).flatten)
        (ePos segs j + (encMarkerOf (base + j)).length)
        (ePos segs j + (encMarkerOf (base + j)).length +
          (segs.get ⟨j, hj⟩).text.length) =
      (segs.get ⟨j, hj⟩).text := by
  have hsid : (segs.get ⟨j, hj⟩).id = base + j := segsId_at segs base hid j hj
  unfold pySlice
  rw [← hsid]
  rw [← List.drop_drop, drop_ePos segs j (Nat.le_of_lt hj),
    List.drop_eq_getElem_cons hj, List.map_cons, List.flatten_cons,
    show (segs[j] : Segment) = segs.get ⟨j, hj⟩ from rfl, eBlock_assoc,
    drop_length_append]
  have hdiff : ePos segs j + (encMarkerOf (segs.get ⟨j, hj⟩).id).length +
      (segs.get ⟨j, hj⟩).text.length -
      (ePos segs j + (encMarkerOf (segs.get ⟨j, hj⟩).id).length) =
      (segs.get ⟨j, hj⟩).text.length := by omega
  rw [hdiff, List.take_append_of_le_length (Nat.le_refl _), List.take_length]

/-- On an echoed Enhanced-Marker composite text, every segment's extracted
value is its own original text. -/
theorem encValue_echo (segs : List Segment) (base : Nat)
    (hid : segs.map (·.id) = List.range' base segs.length)
    (hcln : ∀ s ∈ segs, '【' ∉ s.text)
    (htrim : ∀ s ∈ segs, pyStrip s.text = s.text)
    (j : Nat) (hj : j < segs.length) :
    encValue ((segs.map eBlock).flatten) (segs.get ⟨j, hj⟩) =
      (segs.get ⟨j, hj⟩).text := by
  have hsid : (segs.get ⟨j, hj⟩).id = base + j := segsId_at segs base hid j hj
  unfold encValue
  rw [hsid, eText_strFind_open segs base hid hcln j hj]
  dsimp only
  rw [eText_strFind_close segs base hid hcln j hj]
  dsimp only
  rw [eText_slice segs j hj base hid]
  rw [htrim _ (List.get_mem segs j hj)]
  by_cases he : (segs.get ⟨j, hj⟩).text = []
  · rw [if_pos he, he]
  · rw [if_neg he]

/-- Echoing the Enhanced-Marker composite text reproduces the original
texts exactly. -/
theorem encExtract_echo (segs : List Segment) (base : Nat)
    (hid : segs.map (·.id) = List.range' base segs.length)
    (hcln : ∀ s ∈ segs, '【' ∉ s.text)
    (htrim : ∀ s ∈ segs, pyStrip s.text = s.text) :
    encExtract segs (encMarkedText segs) =
      segs.map (fun s => (s.id, s.text)) := by
  have hnd : (segs.map (·.id)).Nodup := by
    rw [hid]
    exact List.nodup_range' base segs.length 1 (by omega)
  rw [encMarkedText_eq_flatten, encExtract_eq_insertFold,
    insertFold_eq_append _ segs [] hnd (fun s _ => dictHasKey_nil s.id),
    List.nil_append]
  apply List.map_congr_left
  intro s hs
  rcases List.mem_iff_get.mp hs with ⟨⟨j, hj⟩, rfl⟩
  rw [encValue_echo segs base hid hcln htrim j hj]

/-! ### Echo no-op behavior of the Orchestrator (C10) -/

/-- The spec's translator stub that echoes its input unchanged. -/
def echoTranslator : Translator := fun s => some s

theorem markedText_ne_nil (segs : List Segment) (h : segs ≠ []) :
    markedText segs ≠ [] := by
  rw [markedText_eq_flatten]
  cases segs with
  | nil => exact absurd rfl h
  | cons s rest =>
    rw [List.map_cons, List.flatten_cons]
    intro he
    exact markerOf_ne_nil s.id (List.append_eq_nil.mp (List.append_eq_nil.mp he).1).1

theorem encMarkedText_ne_nil (segs : List Segment) (h : segs ≠ []) :
    encMarkedText segs ≠ [] := by
  rw [encMarkedText_eq_flatten]
  cases segs with
  | nil => exact absurd rfl h
  | cons s rest =>
    rw [List.map_cons, List.flatten_cons]
    intro he
    have hb := (List.append_eq_nil.mp he).1
    rw [eBlock] at hb
    exact encMarkerOf_ne_nil s.id (List.append_eq_nil.mp (List.append_eq_nil.mp hb).1).1

/-- A candidate that echoes every original text back is rejected by the
quality check. -/
theorem strategyAccept_identity_false (segs : List Segment)
    (hnd : (segs.map (·.id)).Nodup) :
    strategyAccept segs (some (segs.map (fun s => (s.id, s.text)))) = false := by
  unfold strategyAccept
  rw [decide_eq_false_iff_not]
  rintro ⟨-, -, hscan⟩
  have hlook : ∀ s ∈ segs, dictLookup (segs.map (fun s => (s.id, s.text))) s.id =
      some s.text := fun s hs => assocLookup_map (fun s => s.text) segs hnd s hs
  have htrue : qualityScan (segs.map (fun s => (s.id, s.text))) segs = some true :=
    (qualityScan_true_iff _ segs (fun s hs => ⟨s.text, hlook s hs⟩)).mpr hlook
  rw [htrue] at hscan
  cases hscan

/-- Claim C10 (amended): with an echo translator, the two marker-based
strategies reproduce the original texts exactly and are rejected by the
no-op check; the Orchestrator then returns the Smart-Split candidate when
that candidate is accepted, and only otherwise the identity mapping. -/
theorem echo_marker_rejection (segs : List Segment)
    (hwf : SegsWF segs) (hlen : 1 < segs.length)
    (hcln1 : ∀ s ∈ segs, '[' ∉ s.text) (hcln2 : ∀ s ∈ segs, '【' ∉ s.text)
    (htrim : ∀ s ∈ segs, pyStrip s.text = s.text) :
    translate_text echoTranslator segs =
      some (segs.map (fun s => (s.id, s.text))) ∧
    translate_text_with_enhanced_markers echoTranslator segs =
      some (segs.map (fun s => (s.id, s.text))) ∧
    strategyAccept segs (translate_text echoTranslator segs) = false ∧
    strategyAccept segs
      (translate_text_with_enhanced_markers echoTranslator segs) = false ∧
    translate_text_robust echoTranslator segs =
      (if strategyAccept segs (translate_and_smart_split echoTranslator segs)
       then translate_and_smart_split echoTranslator segs
       else some (identityMapping segs)) := by
  have hne : segs ≠ [] := by
    intro he; rw [he] at hlen; simp at hlen
  have hnd := hwf.nodupIds
  have hid : segs.map (·.id) = List.range' 0 segs.length := by
    rw [SegsWF] at hwf
    rw [hwf, List.range_eq_range']
  have h1 : translate_text echoTranslator segs =
      some (segs.map (fun s => (s.id, s.text))) := by
    unfold translate_text
    rw [if_neg hne]
    show (if markedText segs = [] then none
      else some (markerExtract segs (markedText segs))) = _
    rw [if_neg (markedText_ne_nil segs hne),
      markerExtract_echo segs 0 hid hcln1 htrim]
  have h2 : translate_text_with_enhanced_markers echoTranslator segs =
      some (segs.map (fun s => (s.id, s.text))) := by
    rw [enhanced_no_partial_escalation echoTranslator segs hne hnd
      (encMarkedText segs) rfl (encMarkedText_ne_nil segs hne),
      encExtract_echo segs 0 hid hcln2 htrim]
  have hrej1 : strategyAccept segs (translate_text echoTranslator segs) = false := by
    rw [h1]
    exact strategyAccept_identity_false segs hnd
  have hrej2 : strategyAccept segs
      (translate_text_with_enhanced_markers echoTranslator segs) = false := by
    rw [h2]
    exact strategyAccept_identity_false segs hnd
  refine ⟨h1, h2, hrej1, hrej2, ?_⟩
  unfold translate_text_robust
  rw [if_neg hne, dif_neg (by omega)]
  dsimp only
  rw [hrej1, hrej2]
  simp only [Bool.false_eq_true, if_false]

/-- Counterexample to C10 as stated: for segments `[{0,"a b"},{1,"cd"}]`
the echo translator leads to a Smart-Split candidate `{0:"a", 1:"bcd"}`
whose values differ from the originals, so the Orchestrator accepts it and
the final mapping is not the identity mapping. -/
theorem echo_noop_counterexample :
    translate_text_robust echoTranslator [⟨0, ['a', ' ', 'b']⟩, ⟨1, ['c', 'd']⟩] =
      some [(0, ['a']), (1, ['b', 'c', 'd'])] ∧
    dictLookup [(0, ['a']), (1, ['b', 'c', 'd'])] 0 ≠ some ['a', ' ', 'b'] := by
  decide

/-- Witness for the amended C10 at a concrete input. -/
theorem echo_marker_rejection_witness :
    translate_text_robust echoTranslator [⟨0, ['a', ' ', 'b']⟩, ⟨1, ['c', 'd']⟩] =
      (if strategyAccept [⟨0, ['a', ' ', 'b']⟩, ⟨1, ['c', 'd']⟩]
          (translate_and_smart_split echoTranslator
            [⟨0, ['a', ' ', 'b']⟩, ⟨1, ['c', 'd']⟩])
       then translate_and_smart_split echoTranslator
         [⟨0, ['a', ' ', 'b']⟩, ⟨1, ['c', 'd']⟩]
       else some (identityMapping [⟨0, ['a', ' ', 'b']⟩, ⟨1, ['c', 'd']⟩])) :=
  (echo_marker_rejection [⟨0, ['a', ' ', 'b']⟩, ⟨1, ['c', 'd']⟩]
    (by decide) (by decide) (by decide) (by decide) (by decide)).2.2.2.2
